import Mathlib

/-! # godot-learning-app-exporter: slice extraction

A shallow embedding of `godot-learning-app-exporter.js` and the properties of its
slice extraction.

Modelling conventions.

* A JavaScript string is a sequence of UTF-16 code units: `Str` is `List Nat`, each
  element one code unit. `length`, `slice`, the regular expressions (none carries the
  `u` flag) and string comparison all work on code units, and so does this model;
  a "character" below is a code unit.
* `undefined` for a capture group that did not take part in a match is `none`.
* A thrown exception is the `error` case of `Except Failure`.
* The file system is outside the model: `getProjectSlices` receives the ordered list
  of candidate files, each as the pair of `filePath` (the path after
  `path.replace(projectPath, "")`) and the text returned by `readFileSync`.
* The functions of the runtime's `path` module depend on the platform; they are the
  parameter `PathLib`.
-/

namespace Exporter

/-- A JavaScript string, as its sequence of UTF-16 code units. -/
abbrev Str := List Nat

/-- The code units of one Unicode character. -/
def utf16Char (c : Char) : Str :=
  if c.toNat < 65536 then [c.toNat]
  else [55296 + (c.toNat - 65536) / 1024, 56320 + (c.toNat - 65536) % 1024]

/-- The JavaScript string written as the literal `s`. -/
def utf16 (s : String) : Str :=
  s.toList.flatMap utf16Char

/-! ## Character classes of the regular-expression language -/

/-- The class `\s`: WhiteSpace and LineTerminator code units. -/
def isWhiteSpace (c : Nat) : Bool :=
  c == 9 || c == 10 || c == 11 || c == 12 || c == 13 || c == 32 || c == 160 ||
  c == 5760 || (8192 ≤ c && c ≤ 8202) || c == 8232 || c == 8233 || c == 8239 ||
  c == 8287 || c == 12288 || c == 65279

/-! ## Strings and arrays -/

/-- The method `Array.prototype.join` with separator `"\n"`. -/
def joinLines : List Str → Str
  | [] => []
  | [l] => l
  | l :: l2 :: ls => l ++ 10 :: joinLines (l2 :: ls)

/-- Splitting with a current-line accumulator: `cur` holds the code units of the line
being read. -/
def splitAux : Str → Str → List Str
  | [], cur => [cur]
  | c :: cs, cur => if c = 10 then cur :: splitAux cs [] else splitAux cs (cur ++ [c])

/-- The method `String.prototype.split` with separator `"\n"`. -/
def splitLines (s : Str) : List Str :=
  splitAux s []

/-- The method `slice(a, b)` of an array, for indices within `0 .. length`. -/
def sliceRange {α : Type} (xs : List α) (a b : Nat) : List α :=
  (xs.take b).drop a

/-- The method `findIndex`: `none` stands for the result `-1`. -/
def findIndex {α : Type} (p : α → Bool) : List α → Option Nat
  | [] => none
  | x :: xs => if p x then some 0 else (findIndex p xs).map (· + 1)

/-! ## Line normalizer -/

/-- The replacement `.replace(/\r\n|\r/g, "\n")`. -/
def replaceLineEndings : Str → Str
  | [] => []
  | 13 :: 10 :: cs => 10 :: replaceLineEndings cs
  | 13 :: cs => 10 :: replaceLineEndings cs
  | c :: cs => c :: replaceLineEndings cs

/-- The replacement `.replace(/^(  +)/g, (subs) => "\t".repeat(subs.length))`. The
pattern has no `m` flag, so `^` matches at the start of the text only: the leading
run of spaces of the text is replaced when it has two spaces or more. -/
def replaceLeadingSpaces (s : Str) : Str :=
  let subs := s.takeWhile (· == 32)
  if 2 ≤ subs.length then List.replicate subs.length 9 ++ s.drop subs.length else s

/-- The function `sanitizeFileContents`. -/
def sanitizeFileContents (fileContents : Str) : Str :=
  replaceLeadingSpaces (replaceLineEndings fileContents)

/-! ## Tag matcher -/

/-- The keyword of a marker. -/
def exportKeyword : Str := utf16 "EXPORT"

/-- The result of `line.match(tagRegExp)`: the three capture groups. -/
structure TagMatch where
  indentStr : Str
  keyword : Str
  name : Option Str
deriving DecidableEq, Repr

/-- The part of `tagRegExp` after the keyword, `(?:(?:\s+)(.*?))?(?:\s|$)`, on the rest
of the line. With nothing left the optional group is skipped and `$` matches: the name
is `undefined`. With whitespace next, `\s+` takes the whole run and the lazy `(.*?)`
stops at the first whitespace or the end. Otherwise there is no match. -/
def tagName (rest : Str) : Option (Option Str) :=
  match rest with
  | [] => some none
  | c :: _ =>
    if isWhiteSpace c then
      some (some ((rest.dropWhile isWhiteSpace).takeWhile (fun d => !isWhiteSpace d)))
    else none

/-- The match `line.match(tagRegExp)` for
`tagRegExp = /^(\s*)#\s(EXPORT)(?:(?:\s+)(.*?))?(?:\s|$)/`; `none` is `null`. -/
def tagRegExpMatch (line : Str) : Option TagMatch :=
  let indentStr := line.takeWhile isWhiteSpace
  match line.dropWhile isWhiteSpace with
  | 35 :: w :: 69 :: 88 :: 80 :: 79 :: 82 :: 84 :: rest =>
    if isWhiteSpace w then
      (tagName rest).map fun name => { indentStr := indentStr, keyword := exportKeyword, name := name }
    else none
  | _ => none

/-! ## Regular expressions

The runtime's `RegExp` for patterns without flags, on code units. A pattern is parsed
by the grammar of ECMAScript (with the Annex B extensions that apply without the `u`
flag) and matched by enumerating the end positions of every way to match, which decides
whether `String.prototype.match` finds a match.

The model covers: pattern characters, `.`, `^`, `$`, `|`, groups `( )` and `(?: )`,
lookahead `(?= )` and `(?! )`, the quantifiers `*`, `+`, `?`, `{n}`, `{n,}`, `{n,m}`
and their lazy forms, character classes, the escapes `\d \D \s \S \w \W \b \B
\t \n \v \f \r` and identity escapes. It does not cover what needs the captured
text or tables of Unicode properties: a backslash followed by a digit, `\c`, `\x`,
`\u`, `\k`, and a group opening with `(?` other than the three above. For those the
result is `unmodelled` and the model makes no statement. -/

/-- A set of code units: those inside the ranges (`neg = false`) or outside them. -/
structure ClassItem where
  neg : Bool
  ranges : List (Nat × Nat)
deriving DecidableEq, Repr

/-- Membership of a code unit in a class item. -/
def ClassItem.has (it : ClassItem) (c : Nat) : Bool :=
  it.neg != it.ranges.any (fun r => decide (r.1 ≤ c) && decide (c ≤ r.2))

/-- The set holding the single code unit `c`. -/
def ClassItem.single (c : Nat) : ClassItem := ⟨false, [(c, c)]⟩

/-- The ranges of `\d`. -/
def digitRanges : List (Nat × Nat) := [(48, 57)]

/-- The ranges of `\w`. -/
def wordRanges : List (Nat × Nat) := [(48, 57), (65, 90), (95, 95), (97, 122)]

/-- The ranges of `\s`. -/
def spaceRanges : List (Nat × Nat) :=
  [(9, 13), (32, 32), (160, 160), (5760, 5760), (8192, 8202), (8232, 8233), (8239, 8239),
   (8287, 8287), (12288, 12288), (65279, 65279)]

/-- The line terminators, which `.` does not match. -/
def lineTerminatorRanges : List (Nat × Nat) := [(10, 10), (13, 13), (8232, 8233)]

/-- A parsed pattern. Groups leave no node of their own: captured text is never read. -/
inductive Re where
  | empty
  | chars (neg : Bool) (items : List ClassItem)
  | bol
  | eol
  | wordBoundary (neg : Bool)
  | seq (a b : Re)
  | alt (a b : Re)
  | rep (min : Nat) (max : Option Nat) (a : Re)
  | look (neg : Bool) (a : Re)
deriving DecidableEq, Repr

/-- The end positions of `min` to `max` iterations of `step` from `x`, as RepeatMatcher
finds them: once `min` has reached zero an iteration that consumes nothing is
rejected. Every call either lowers `min` or moves forward, so `fuel` above
`min + length` is never used up. -/
def repeatEnds (step : Nat → List Nat) : Nat → Nat → Option Nat → Nat → List Nat
  | 0, _, _, _ => []
  | fuel + 1, min, max, x =>
    if max = some 0 then [x]
    else
      let ys := (step x).filter fun y => !(min == 0 && y == x)
      let more := ys.flatMap (repeatEnds step fuel (min - 1) (max.map (· - 1)))
      if min = 0 then more ++ [x] else more

/-- Whether the code unit at index `x` of `input` is a word character. -/
def isWordCharAt (input : Str) (x : Nat) : Bool :=
  match input.get? x with
  | some c => (ClassItem.mk false wordRanges).has c
  | none => false

/-- The end positions of the matches of a pattern that start at index `x`. -/
def Re.ends (input : Str) : Re → Nat → List Nat
  | .empty, x => [x]
  | .chars neg items, x =>
    match input.get? x with
    | some c => if neg != items.any (·.has c) then [x + 1] else []
    | none => []
  | .bol, x => if x = 0 then [x] else []
  | .eol, x => if x = input.length then [x] else []
  | .wordBoundary neg, x =>
    let a := x != 0 && isWordCharAt input (x - 1)
    let b := isWordCharAt input x
    if (a != b) != neg then [x] else []
  | .seq a b, x => (a.ends input x).flatMap (b.ends input)
  | .alt a b, x => a.ends input x ++ b.ends input x
  | .rep min max a, x => repeatEnds (a.ends input) (min + input.length + 1) min max x
  | .look neg a, x => if (a.ends input x).isEmpty = neg then [x] else []

/-- Whether `input.match(r)` is not `null`: some start index has a match. -/
def Re.test (r : Re) (input : Str) : Bool :=
  (List.range (input.length + 1)).any fun x => !(r.ends input x).isEmpty

/-- The outcome of parsing a part of a pattern. -/
inductive Parsed (α : Type) where
  | ok (value : α) (rest : Str)
  | syntaxError
  | unmodelled

/-- The value of a run of decimal digits. -/
def digitsValue (ds : Str) : Nat :=
  ds.foldl (fun n d => 10 * n + (d - 48)) 0

/-- Whether a code unit is a decimal digit. -/
def isDigit (c : Nat) : Bool := decide (48 ≤ c) && decide (c ≤ 57)

/-- A braced quantifier `{n}`, `{n,}` or `{n,m}`, read after its `{`. -/
def bracedQuantifier (input : Str) : Option ((Nat × Option Nat) × Str) :=
  let ds := input.takeWhile isDigit
  if ds.length = 0 then none
  else
    match input.dropWhile isDigit with
    | 125 :: rest => some ((digitsValue ds, some (digitsValue ds)), rest)
    | 44 :: 125 :: rest => some ((digitsValue ds, none), rest)
    | 44 :: rest =>
      let es := rest.takeWhile isDigit
      if es.length = 0 then none
      else
        match rest.dropWhile isDigit with
        | 125 :: rest2 => some ((digitsValue ds, some (digitsValue es)), rest2)
        | _ => none
    | _ => none

/-- The prefix of a quantifier: `*`, `+`, `?` or a braced quantifier. -/
def quantifierPrefix (input : Str) : Option ((Nat × Option Nat) × Str) :=
  match input with
  | 42 :: rest => some ((0, none), rest)
  | 43 :: rest => some ((1, none), rest)
  | 63 :: rest => some ((0, some 1), rest)
  | 123 :: rest => bracedQuantifier rest
  | _ => none

/-- An atom followed by its optional quantifier; a lazy `?` after the quantifier is
consumed, and bounds out of order are a syntax error. -/
def quantified (atom : Re) (input : Str) : Parsed Re :=
  match quantifierPrefix input with
  | none => .ok atom input
  | some ((min, max), rest) =>
    let rest2 := match rest with
      | 63 :: r => r
      | _ => rest
    match max with
    | some m => if m < min then .syntaxError else .ok (.rep min max atom) rest2
    | none => .ok (.rep min max atom) rest2

/-- What a backslash followed by the code unit `e` stands for. -/
inductive Escape where
  | single (c : Nat)
  | cls (item : ClassItem)
  | unmodelled

/-- The escape `\e`, outside a class (`\b` and `\B` are handled before) or inside one
(where `\b` is the backspace). -/
def escape (inClass : Bool) (e : Nat) : Escape :=
  if e = 100 then .cls ⟨false, digitRanges⟩
  else if e = 68 then .cls ⟨true, digitRanges⟩
  else if e = 115 then .cls ⟨false, spaceRanges⟩
  else if e = 83 then .cls ⟨true, spaceRanges⟩
  else if e = 119 then .cls ⟨false, wordRanges⟩
  else if e = 87 then .cls ⟨true, wordRanges⟩
  else if e = 116 then .single 9
  else if e = 110 then .single 10
  else if e = 118 then .single 11
  else if e = 102 then .single 12
  else if e = 114 then .single 13
  else if e = 98 && inClass then .single 8
  else if isDigit e || e = 99 || e = 120 || e = 117 || e = 107 then .unmodelled
  else .single e

/-- The item of an escape that is modelled. -/
def Escape.item : Escape → ClassItem
  | .single c => ClassItem.single c
  | .cls it => it
  | .unmodelled => ⟨false, []⟩

/-- One atom of a character class, read where the class has not ended. -/
def classAtom (input : Str) : Parsed Escape :=
  match input with
  | [] => .syntaxError
  | [92] => .syntaxError
  | 92 :: e :: rest =>
    match escape true e with
    | .unmodelled => .unmodelled
    | a => .ok a rest
  | c :: rest => .ok (.single c) rest

/-- The ranges of a character class, read after `[` or `[^` up to the closing `]`.
A `-` between two single code units makes a range, which must be in order; next to
a class escape it is a member of its own. -/
def classRanges : Nat → Str → List ClassItem → Parsed (List ClassItem)
  | 0, _, _ => .unmodelled
  | fuel + 1, input, acc =>
    match input with
    | [] => .syntaxError
    | 93 :: rest => .ok acc rest
    | _ =>
      match classAtom input with
      | .syntaxError => .syntaxError
      | .unmodelled => .unmodelled
      | .ok a rest1 =>
        match rest1 with
        | 45 :: c2 :: rest2 =>
          if c2 = 93 then classRanges fuel rest1 (acc ++ [a.item])
          else
            match classAtom (c2 :: rest2) with
            | .syntaxError => .syntaxError
            | .unmodelled => .unmodelled
            | .ok b rest3 =>
              match a, b with
              | .single x, .single y =>
                if y < x then .syntaxError
                else classRanges fuel rest3 (acc ++ [⟨false, [(x, y)]⟩])
              | _, _ => classRanges fuel rest3 (acc ++ [a.item, ClassItem.single 45, b.item])
        | _ => classRanges fuel rest1 (acc ++ [a.item])

/-- A character class, read after its `[`. -/
def characterClass (input : Str) : Parsed Re :=
  let neg := input.head? == some 94
  let body := if neg then input.drop 1 else input
  match classRanges (body.length + 1) body [] with
  | .ok items rest => quantified (.chars neg items) rest
  | .syntaxError => .syntaxError
  | .unmodelled => .unmodelled

mutual

/-- A Disjunction: alternatives separated by `|`. -/
def parseDisjunction : Nat → Str → Parsed Re
  | 0, _ => .unmodelled
  | fuel + 1, input =>
    match parseAlternative fuel input with
    | .ok a (124 :: rest) =>
      match parseDisjunction fuel rest with
      | .ok b rest2 => .ok (.alt a b) rest2
      | e => e
    | r => r

/-- An Alternative: terms up to `|`, `)` or the end of the pattern. -/
def parseAlternative : Nat → Str → Parsed Re
  | 0, _ => .unmodelled
  | fuel + 1, input =>
    match input with
    | [] => .ok .empty []
    | 124 :: _ => .ok .empty input
    | 41 :: _ => .ok .empty input
    | _ =>
      match parseTerm fuel input with
      | .ok t rest =>
        match parseAlternative fuel rest with
        | .ok a rest2 => .ok (.seq t a) rest2
        | e => e
      | e => e

/-- A Term: an assertion, or an atom with its optional quantifier. -/
def parseTerm : Nat → Str → Parsed Re
  | 0, _ => .unmodelled
  | fuel + 1, input =>
    match input with
    | [] => .syntaxError
    | 94 :: rest => .ok .bol rest
    | 36 :: rest => .ok .eol rest
    | [92] => .syntaxError
    | 92 :: 98 :: rest => .ok (.wordBoundary false) rest
    | 92 :: 66 :: rest => .ok (.wordBoundary true) rest
    | 92 :: e :: rest =>
      match escape false e with
      | .unmodelled => .unmodelled
      | a => quantified (.chars false [a.item]) rest
    | 40 :: 63 :: 58 :: rest =>
      match parseDisjunction fuel rest with
      | .ok d (41 :: rest2) => quantified d rest2
      | .ok _ _ => .syntaxError
      | e => e
    | 40 :: 63 :: 61 :: rest =>
      match parseDisjunction fuel rest with
      | .ok d (41 :: rest2) => quantified (.look false d) rest2
      | .ok _ _ => .syntaxError
      | e => e
    | 40 :: 63 :: 33 :: rest =>
      match parseDisjunction fuel rest with
      | .ok d (41 :: rest2) => quantified (.look true d) rest2
      | .ok _ _ => .syntaxError
      | e => e
    | 40 :: 63 :: _ => .unmodelled
    | 40 :: rest =>
      match parseDisjunction fuel rest with
      | .ok d (41 :: rest2) => quantified d rest2
      | .ok _ _ => .syntaxError
      | e => e
    | 42 :: _ => .syntaxError
    | 43 :: _ => .syntaxError
    | 63 :: _ => .syntaxError
    | 123 :: rest =>
      match bracedQuantifier rest with
      | some _ => .syntaxError
      | none => quantified (.chars false [ClassItem.single 123]) rest
    | 91 :: rest => characterClass rest
    | 46 :: rest => quantified (.chars true [⟨false, lineTerminatorRanges⟩]) rest
    | c :: rest => quantified (.chars false [ClassItem.single c]) rest

end

/-- The outcome of `RegExp(source)`. -/
inductive RegExpResult where
  | regex (r : Re)
  | syntaxError
  | unmodelled
deriving DecidableEq, Repr

/-- The constructor call `RegExp(source)`: the parsed pattern, or the `SyntaxError` it
throws. A pattern left with text after its disjunction has an unmatched `)`. -/
def RegExp (source : Str) : RegExpResult :=
  match parseDisjunction (3 * source.length + 3) source with
  | .ok r [] => .regex r
  | .ok _ _ => .syntaxError
  | .syntaxError => .syntaxError
  | .unmodelled => .unmodelled

/-! ## Objects used as tables -/

/-- A plain object created by `{}` and filled by assignments `obj[key] = value` whose
values are objects. `props` holds the own properties in creation order. `proto` records
an assignment to the key `__proto__`: that key reaches the setter inherited from
`Object.prototype`, which replaces the prototype of the object and creates no
property. -/
structure JsObj (α : Type) where
  proto : Option α
  props : List (Str × α)
deriving DecidableEq, Repr

/-- The object `{}`. -/
def JsObj.empty {α : Type} : JsObj α := ⟨none, []⟩

/-- Writing an own property: an existing key keeps its place and takes the new value,
a new key is added at the end. -/
def setProp {α : Type} (k : Str) (v : α) : List (Str × α) → List (Str × α)
  | [] => [(k, v)]
  | p :: ps => if p.1 = k then (k, v) :: ps else p :: setProp k v ps

/-- The assignment `obj[k] = v`. -/
def JsObj.set {α : Type} (o : JsObj α) (k : Str) (v : α) : JsObj α :=
  if k = utf16 "__proto__" then { o with proto := some v }
  else { o with props := setProp k v o.props }

/-- The own keys of an object. -/
def JsObj.keys {α : Type} (o : JsObj α) : List Str :=
  o.props.map (·.1)

/-- Reading an own property. -/
def getProp {α : Type} (k : Str) : List (Str × α) → Option α
  | [] => none
  | p :: ps => if p.1 = k then some p.2 else getProp k ps

/-- The own property `k` of an object, if it has one. -/
def JsObj.get? {α : Type} (o : JsObj α) (k : Str) : Option α :=
  getProp k o.props

/-! ## Slice resolver -/

/-- A slice record. `original` is `none` when the record has no such property. -/
structure Slice where
  all : Bool
  name : Str
  before : Str
  after : Str
  contents : Str
  indent : Nat
  start : Nat
  end_ : Nat
  original : Option Str
deriving DecidableEq, Repr

/-- What ends a run without a result. `missingClosingTag` is the `Error` thrown by
`getProjectSlices`, with its message; `regExpSyntaxError` is the `SyntaxError` thrown
by `RegExp(source)`. `regExpUnmodelled` is no outcome of the program: it marks a
pattern outside the modelled part of the regular-expression language, on which the
model makes no statement. -/
inductive Failure where
  | missingClosingTag (message : Str)
  | regExpSyntaxError (source : Str)
  | regExpUnmodelled (source : Str)
deriving DecidableEq, Repr

/-- The message of the error for a slice without a closing tag. -/
def closingTagMessage (filePath name : Str) : Str :=
  filePath ++ utf16 ": The slice \"" ++ name ++ utf16 "\" does not have a closing tag"

/-- The source of `endRegExp`. -/
def endRegExpSource (indentStr keyword name : Str) : Str :=
  utf16 "^" ++ indentStr ++ utf16 "# \\/" ++ keyword ++ utf16 " " ++ name ++ utf16 "\\s*$"

/-- The record `slice` as first built for a marker. -/
def initialSlice (contents : Str) (lines : List Str) (indent lineNb : Nat) : Slice :=
  { all := true, name := [], before := [], after := [], contents := contents,
    indent := indent, start := lineNb, end_ := lines.length, original := none }

/-- The branch `!name || name === "*"`: the slice of the whole file. -/
def wholeFileSlice (slice : Slice) (lines : List Str) (indent : Nat) : Slice :=
  { slice with
    name := utf16 "*"
    contents := joinLines (if indent ≠ 0 then lines.map (fun line => line.drop indent) else lines) }

/-- The rest of the callback, for a named marker on line `lineNb`. -/
def namedSlice (filePath : Str) (lines : List Str) (slice : Slice)
    (indentStr keyword name : Str) (lineNb : Nat) : Except Failure Slice :=
  let indent := indentStr.length
  let start := lineNb + 1
  match RegExp (endRegExpSource indentStr keyword name) with
  | .syntaxError => .error (.regExpSyntaxError (endRegExpSource indentStr keyword name))
  | .unmodelled => .error (.regExpUnmodelled (endRegExpSource indentStr keyword name))
  | .regex endRegExp =>
    match findIndex (fun line => endRegExp.test line) (lines.drop start) with
    | none => .error (.missingClosingTag (closingTagMessage filePath name))
    | some _end =>
      let end_ := start + _end
      let original := sliceRange lines start end_
      .ok { slice with
            all := false
            name := name
            end_ := end_
            start := start + 1
            before := joinLines (sliceRange lines 0 (start + 1))
            after := joinLines (lines.drop (end_ + 1))
            original := some (joinLines original)
            contents := joinLines
              (if indent ≠ 0 then original.map (fun line => line.drop indent) else original) }

/-- The callback of `lines.reduce`. -/
def onLine (filePath contents : Str) (lines : List Str) (validLines : List Slice)
    (line : Str) (lineNb : Nat) : Except Failure (List Slice) :=
  match tagRegExpMatch line with
  | none => .ok validLines
  | some m =>
    let indent := m.indentStr.length
    let slice := initialSlice contents lines indent lineNb
    match m.name with
    | none => .ok (validLines ++ [wholeFileSlice slice lines indent])
    | some name =>
      if name = [] ∨ name = utf16 "*" then .ok (validLines ++ [wholeFileSlice slice lines indent])
      else
        match namedSlice filePath lines slice m.indentStr m.keyword name lineNb with
        | .error e => .error e
        | .ok named => .ok (validLines ++ [named])

/-- The call `lines.reduce(callback, [])`, from line `lineNb` on: `rest` holds the lines
still to visit and `validLines` the accumulator. An exception ends the reduction. -/
def reduceLines (filePath contents : Str) (lines : List Str) :
    List Str → Nat → List Slice → Except Failure (List Slice)
  | [], _, validLines => .ok validLines
  | line :: rest, lineNb, validLines =>
    match onLine filePath contents lines validLines line lineNb with
    | .error e => .error e
    | .ok validLines2 => reduceLines filePath contents lines rest (lineNb + 1) validLines2

/-- The array `validSlices` of a file given by its normalized text and lines. -/
def sliceLines (filePath contents : Str) (lines : List Str) : Except Failure (List Slice) :=
  reduceLines filePath contents lines lines 0 []

/-- The array `validSlices` of a file given by the text read from it. -/
def extractFile (filePath fileContents : Str) : Except Failure (List Slice) :=
  let contents := sanitizeFileContents fileContents
  sliceLines filePath contents (splitLines contents)

/-! ## File and project aggregators -/

/-- The functions of the `path` module that the program calls. -/
structure PathLib where
  extname : Str → Str
  basename : Str → Str → Str
  dirname : Str → Str

/-- The accumulator of `validSlices.reduce`. -/
structure SliceTable where
  slices : JsObj Slice
  slices_names : List Str
deriving DecidableEq, Repr

/-- The call `validSlices.reduce(...)` that builds `slices` and `slices_names`. -/
def collectSlices (validSlices : List Slice) : SliceTable :=
  validSlices.foldl
    (fun obj slice =>
      { slices := obj.slices.set slice.name slice
        slices_names := obj.slices_names ++ [slice.name] })
    { slices := JsObj.empty, slices_names := [] }

/-- The record of one file. -/
structure FileConfig where
  file_path : Str
  dir_name : Str
  file_name : Str
  godot_path : Str
  slices_names : List Str
  slices : JsObj Slice
deriving DecidableEq, Repr

/-- The record pushed for a file with the slices `validSlices`. -/
def fileConfig (path : PathLib) (filePath : Str) (validSlices : List Slice) : FileConfig :=
  let file_name := path.basename filePath (path.extname filePath)
  let dir_name := path.dirname filePath
  let godot_path := utf16 "res://" ++ filePath
  let obj := collectSlices validSlices
  { file_path := filePath, dir_name := dir_name, file_name := file_name,
    godot_path := godot_path, slices_names := obj.slices_names, slices := obj.slices }

/-- The callback of the first `reduce` of `getProjectSlices`, for the file `file`:
its `filePath` and the text read from it. -/
def onFile (path : PathLib) (validFiles : List FileConfig) (file : Str × Str) :
    Except Failure (List FileConfig) :=
  match extractFile file.1 file.2 with
  | .error e => .error e
  | .ok validSlices =>
    if validSlices.length = 0 then .ok validFiles
    else .ok (validFiles ++ [fileConfig path file.1 validSlices])

/-- The first `reduce` of `getProjectSlices` over the candidate files. -/
def reduceFiles (path : PathLib) :
    List (Str × Str) → List FileConfig → Except Failure (List FileConfig)
  | [], validFiles => .ok validFiles
  | file :: rest, validFiles =>
    match onFile path validFiles file with
    | .error e => .error e
    | .ok validFiles2 => reduceFiles path rest validFiles2

/-- The manifest. -/
structure Manifest where
  files_paths : List Str
  files : JsObj FileConfig
deriving DecidableEq, Repr

/-- The second `reduce` of `getProjectSlices`. -/
def collectFiles (validFiles : List FileConfig) : Manifest :=
  validFiles.foldl
    (fun obj fileConfig =>
      { files := obj.files.set fileConfig.file_path fileConfig
        files_paths := obj.files_paths ++ [fileConfig.file_path] })
    { files_paths := [], files := JsObj.empty }

/-- The function `getProjectSlices`, on the candidate files that `glob` lists. -/
def getProjectSlices (path : PathLib) (files : List (Str × Str)) : Except Failure Manifest :=
  match reduceFiles path files [] with
  | .error e => .error e
  | .ok validFiles => .ok (collectFiles validFiles)

deriving instance DecidableEq for Except

/-! ## Notions used to state the properties -/

/-- Whether `line` matches the `endRegExp` built for the indentation, keyword and name
of an opening marker. An invalid pattern matches no line. -/
def isClosingLine (indentStr keyword name line : Str) : Bool :=
  match RegExp (endRegExpSource indentStr keyword name) with
  | .regex endRegExp => endRegExp.test line
  | _ => false

/-- The name under which the marker on `line` is recorded, `none` when the line is
not a marker: an absent or empty name is recorded as `*`. -/
def markerName (line : Str) : Option Str :=
  match tagRegExpMatch line with
  | none => none
  | some m =>
    match m.name with
    | none => some (utf16 "*")
    | some name => if name = [] then some (utf16 "*") else some name

/-- What the callback of `lines.reduce` adds for one line: nothing for a line that is
not a marker, one slice for a marker. -/
def lineSlice (filePath contents : Str) (lines : List Str) (line : Str) (lineNb : Nat) :
    Except Failure (Option Slice) :=
  match tagRegExpMatch line with
  | none => .ok none
  | some m =>
    let slice := initialSlice contents lines m.indentStr.length lineNb
    match m.name with
    | none => .ok (some (wholeFileSlice slice lines m.indentStr.length))
    | some name =>
      if name = [] ∨ name = utf16 "*" then
        .ok (some (wholeFileSlice slice lines m.indentStr.length))
      else
        match namedSlice filePath lines slice m.indentStr m.keyword name lineNb with
        | .error e => .error e
        | .ok named => .ok (some named)

/-- The slice of a named marker, unfolded. -/
def closedSlice (lines : List Str) (slice : Slice) (indentStr name : Str) (lineNb e : Nat) :
    Slice :=
  { slice with
    all := false
    name := name
    end_ := lineNb + 1 + e
    start := lineNb + 1 + 1
    before := joinLines (sliceRange lines 0 (lineNb + 1 + 1))
    after := joinLines (lines.drop (lineNb + 1 + e + 1))
    original := some (joinLines (sliceRange lines (lineNb + 1) (lineNb + 1 + e)))
    contents := joinLines
      (if indentStr.length ≠ 0 then
        (sliceRange lines (lineNb + 1) (lineNb + 1 + e)).map (fun line => line.drop indentStr.length)
      else sliceRange lines (lineNb + 1) (lineNb + 1 + e)) }

/-- What a file adds to `validFiles`: nothing when it has no slice, its record
otherwise. -/
def fileRecord (path : PathLib) (file : Str × Str) : Except Failure (Option FileConfig) :=
  match extractFile file.1 file.2 with
  | .error e => .error e
  | .ok validSlices =>
    if validSlices.length = 0 then .ok none else .ok (some (fileConfig path file.1 validSlices))

/-- The lines of the example of the specification. -/
def demoLines : List Str :=
  [utf16 "# EXPORT demo", utf16 "line one", utf16 "line two", utf16 "# /EXPORT demo"]

/-- The text of the example of the specification, without a trailing line feed. -/
def demoText : Str := utf16 "# EXPORT demo\nline one\nline two\n# /EXPORT demo"

/-- The text of the example of the specification, with a trailing line feed. -/
def demoTextLF : Str := utf16 "# EXPORT demo\nline one\nline two\n# /EXPORT demo\n"

/-- Prepending `indent` tab characters to each line of a text. -/
def reindent (indent : Nat) (text : Str) : Str :=
  joinLines ((splitLines text).map fun line => List.replicate indent 9 ++ line)

/-- A file with an indented slice that holds a blank line. -/
def blankLineText : Str := utf16 "\t# EXPORT a\n\tx\n\n\ty\n\t# /EXPORT a"

/-- A file with two slices of the same name. -/
def twiceText : Str := utf16 "# EXPORT a\none\n# /EXPORT a\n# EXPORT a\ntwo\n# /EXPORT a"

/-- A file with a slice named `__proto__`. -/
def protoText : Str := utf16 "# EXPORT __proto__\nbody\n# /EXPORT __proto__"

/-- A file whose slice name is not a valid pattern. -/
def parenText : Str := utf16 "# EXPORT (\nbody\n# /EXPORT ("

/-- A file without a marker. -/
def plainText : Str := utf16 "extends Node\nvar x = 1"

/-- A file with a marker of the whole file. -/
def wholeText : Str := utf16 "\t# EXPORT\n\tvar x = 1"

/-- The last slice of a list that carries the name `k`. -/
def lastNamed (k : Str) (slices : List Slice) : Option Slice :=
  slices.reverse.find? fun slice => decide (slice.name = k)

/-- A file whose second line begins with two spaces. -/
def spacesText : Str := utf16 "extends Node\n  var x = 1"

/-- A file whose slice is indented by two spaces and opens on the first line. -/
def firstLineIndentText : Str := utf16 "  # EXPORT a\n  x\n  # /EXPORT a"

/-- A file whose slice is indented by two spaces and opens on the second line. -/
def secondLineIndentText : Str := utf16 "extends Node\n  # EXPORT a\n  x\n  # /EXPORT a"

/-- A file whose slice name holds a `+`. -/
def plusText : Str := utf16 "# EXPORT a+b\nbody\n# /EXPORT a+b"

/-- A file whose slice captures one line. -/
def oneLineText : Str := utf16 "# EXPORT a\nx\n# /EXPORT a"

/-- The number of line endings of a raw text: each `\r\n` pair, each other `\r` and each
other `\n` is one line ending. -/
def countLineBreaks : Str → Nat
  | [] => 0
  | 13 :: 10 :: cs => countLineBreaks cs + 1
  | 13 :: cs => countLineBreaks cs + 1
  | 10 :: cs => countLineBreaks cs + 1
  | _ :: cs => countLineBreaks cs

/-- Whether a code unit stands for itself wherever it occurs in a pattern outside a
class: it is none of `^ $ \ . * + ? ( ) [ { |`. -/
def isPatternCharacter (c : Nat) : Bool :=
  !(c == 94 || c == 36 || c == 92 || c == 46 || c == 42 || c == 43 || c == 63 || c == 40 ||
    c == 41 || c == 91 || c == 123 || c == 124)

/-- Whether a code unit is an ASCII letter or digit. -/
def isAlphanumeric (c : Nat) : Bool :=
  (decide (48 ≤ c) && decide (c ≤ 57)) || (decide (65 ≤ c) && decide (c ≤ 90)) ||
    (decide (97 ≤ c) && decide (c ≤ 122))

/-- The pattern that matches the code units `cs` one after the other and then `a`. -/
def litChain (cs : Str) (a : Re) : Re :=
  cs.foldr (fun c r => .seq (.chars false [ClassItem.single c]) r) a

/-- The parsed end `\s*$` of a close pattern. -/
def closeTail : Re :=
  .seq (.rep 0 none (.chars false [⟨false, spaceRanges⟩])) (.seq .eol .empty)

/-- The text `input` does not start with a quantifier. -/
def NoQuantifier (input : Str) : Prop :=
  ∀ c, input.head? = some c → c ≠ 42 ∧ c ≠ 43 ∧ c ≠ 63 ∧ c ≠ 123

/-- With enough fuel, the alternative at the start of `input` parses to `a` and leaves
`rest`. -/
def ParsesTo (input : Str) (a : Re) (rest : Str) : Prop :=
  ∀ fuel, input.length + 1 ≤ fuel → parseAlternative fuel input = .ok a rest

/-- The parsed close pattern of the indentation `P` and the name `N`, when both are made
of pattern characters. -/
def closePattern (P N : Str) : Re :=
  .seq .bol (litChain (P ++ [35, 32])
    (.seq (.chars false [ClassItem.single 47]) (litChain (exportKeyword ++ [32] ++ N) closeTail)))

/-- The step of a pattern that matches one code unit satisfying `p`: from index `z` of
`input` it reaches `z + 1` when the code unit at `z` satisfies `p`. -/
def charStep (input : Str) (p : Nat → Bool) (z : Nat) : List Nat :=
  match input[z]? with
  | some c => if p c then [z + 1] else []
  | none => []

/-- The source of `tagRegExp`. -/
def tagRegExpSource : Str := utf16 "^(\\s*)#\\s(EXPORT)(?:(?:\\s+)(.*?))?(?:\\s|$)"

/-- The parsed `\s`. -/
def spaceChar : Re := .chars false [⟨false, spaceRanges⟩]

/-- The parsed end `(?:(?:\s+)(.*?))?(?:\s|$)` of `tagRegExp`. -/
def tagRest : Re :=
  .seq
    (.rep 0 (some 1)
      (.seq (.seq (.rep 1 none spaceChar) .empty)
        (.seq (.seq (.rep 0 none (.chars true [⟨false, lineTerminatorRanges⟩])) .empty) .empty)))
    (.seq (.alt (.seq spaceChar .empty) (.seq .eol .empty)) .empty)

/-- The parsed `tagRegExp`. -/
def tagRe : Re :=
  .seq .bol
    (.seq (.seq (.rep 0 none spaceChar) .empty)
      (.seq (.chars false [ClassItem.single 35])
        (.seq spaceChar (.seq (litChain exportKeyword .empty) tagRest))))

/-- The normalized lines of a file. -/
def fileLines (fileContents : Str) : List Str :=
  splitLines (sanitizeFileContents fileContents)

/-- Whether a file has at least one marker line. -/
def hasMarker (fileContents : Str) : Bool :=
  (fileLines fileContents).any fun line => (tagRegExpMatch line).isSome

/-- A path library for the examples: `/` separates directories and the last `.` of the
file name starts the extension. -/
def examplePath : PathLib where
  extname := fun p =>
    let file := (p.reverse.takeWhile (· != 47)).reverse
    if file.contains 46 then 46 :: (file.reverse.takeWhile (· != 46)).reverse else []
  basename := fun p ext =>
    let file := (p.reverse.takeWhile (· != 47)).reverse
    if ext.length < file.length ∧ file.drop (file.length - ext.length) = ext then
      file.take (file.length - ext.length)
    else file
  dirname := fun p =>
    if p.contains 47 then (p.reverse.dropWhile (· != 47)).reverse.dropLast else [46]

/-! ## Lists, lines and tables -/

theorem splitAux_ne_nil (s cur : Str) : splitAux s cur ≠ [] := by
  induction s generalizing cur with
  | nil => simp [splitAux]
  | cons c cs ih =>
    unfold splitAux
    split
    · simp
    · exact ih _

theorem joinLines_cons_of_ne_nil (l : Str) (ls : List Str) (h : ls ≠ []) :
    joinLines (l :: ls) = l ++ 10 :: joinLines ls := by
  cases ls with
  | nil => exact absurd rfl h
  | cons l2 ls => rfl

theorem joinLines_splitAux (s cur : Str) : joinLines (splitAux s cur) = cur ++ s := by
  induction s generalizing cur with
  | nil => simp [splitAux, joinLines]
  | cons c cs ih =>
    unfold splitAux
    split
    · next h =>
      rw [joinLines_cons_of_ne_nil _ _ (splitAux_ne_nil _ _), ih, h]
      simp
    · rw [ih]
      simp

/-- Joining the lines of a text with line feeds gives the text back. -/
theorem joinLines_splitLines (s : Str) : joinLines (splitLines s) = s := by
  simpa [splitLines] using joinLines_splitAux s []

theorem map_drop_ite (n : Nat) (xs : List Str) :
    (if n ≠ 0 then xs.map (fun line => line.drop n) else xs) = xs.map (fun line => line.drop n) := by
  by_cases h : n = 0
  · subst h
    simp
  · simp [h]

theorem findIndex_eq_some {α : Type} (p : α → Bool) :
    ∀ (xs : List α) (e : Nat) (x : α), xs[e]? = some x → p x = true →
      (∀ j y, j < e → xs[j]? = some y → p y = false) → findIndex p xs = some e := by
  intro xs
  induction xs with
  | nil => intro e x h; simp at h
  | cons a as ih =>
    intro e x h hp hleast
    cases e with
    | zero =>
      simp at h
      subst h
      simp [findIndex, hp]
    | succ e =>
      have ha : p a = false := hleast 0 a (Nat.succ_pos e) (by simp)
      simp only [List.getElem?_cons_succ] at h
      have := ih e x h hp (fun j y hj hy => hleast (j + 1) y (Nat.succ_lt_succ hj) (by simpa using hy))
      simp [findIndex, ha, this]

/-! ## The reduction over the lines of a file -/

theorem onLine_eq (filePath contents : Str) (lines : List Str) (validLines : List Slice)
    (line : Str) (lineNb : Nat) :
    onLine filePath contents lines validLines line lineNb =
      match lineSlice filePath contents lines line lineNb with
      | .error e => .error e
      | .ok none => .ok validLines
      | .ok (some slice) => .ok (validLines ++ [slice]) := by
  unfold onLine lineSlice
  cases tagRegExpMatch line with
  | none => rfl
  | some m =>
    simp only
    cases m.name with
    | none => rfl
    | some name =>
      simp only
      split
      · rfl
      · cases namedSlice filePath lines (initialSlice contents lines m.indentStr.length lineNb)
          m.indentStr m.keyword name lineNb <;> rfl

theorem namedSlice_of_findIndex (filePath : Str) (lines : List Str) (slice : Slice)
    (indentStr keyword name : Str) (lineNb e : Nat) (re : Re)
    (hre : RegExp (endRegExpSource indentStr keyword name) = .regex re)
    (hf : findIndex (fun line => re.test line) (lines.drop (lineNb + 1)) = some e) :
    namedSlice filePath lines slice indentStr keyword name lineNb =
      .ok (closedSlice lines slice indentStr name lineNb e) := by
  simp only [namedSlice, hre, hf, closedSlice]

theorem namedSlice_ok (filePath : Str) (lines : List Str) (slice : Slice)
    (indentStr keyword name : Str) (lineNb : Nat) (named : Slice)
    (h : namedSlice filePath lines slice indentStr keyword name lineNb = .ok named) :
    ∃ re e, RegExp (endRegExpSource indentStr keyword name) = .regex re ∧
      findIndex (fun line => re.test line) (lines.drop (lineNb + 1)) = some e ∧
      named = closedSlice lines slice indentStr name lineNb e := by
  cases hre : RegExp (endRegExpSource indentStr keyword name) with
  | syntaxError => simp [namedSlice, hre] at h
  | unmodelled => simp [namedSlice, hre] at h
  | regex re =>
    cases hf : findIndex (fun line => re.test line) (lines.drop (lineNb + 1)) with
    | none => simp [namedSlice, hre, hf] at h
    | some e =>
      rw [namedSlice_of_findIndex _ _ _ _ _ _ _ _ _ hre hf] at h
      cases h
      exact ⟨re, e, rfl, hf, rfl⟩

theorem namedSlice_name (filePath : Str) (lines : List Str) (slice : Slice)
    (indentStr keyword name : Str) (lineNb : Nat) (named : Slice)
    (h : namedSlice filePath lines slice indentStr keyword name lineNb = .ok named) :
    named.name = name := by
  obtain ⟨re, e, _, _, rfl⟩ := namedSlice_ok _ _ _ _ _ _ _ _ h
  rfl

theorem lineSlice_name (filePath contents : Str) (lines : List Str) (line : Str) (lineNb : Nat)
    (o : Option Slice) (h : lineSlice filePath contents lines line lineNb = .ok o) :
    o.map (fun slice => slice.name) = markerName line := by
  unfold lineSlice at h
  unfold markerName
  cases hm : tagRegExpMatch line with
  | none =>
    rw [hm] at h
    cases h
    rfl
  | some m =>
    rw [hm] at h
    simp only at h ⊢
    cases hn : m.name with
    | none =>
      rw [hn] at h
      cases h
      rfl
    | some name =>
      rw [hn] at h
      simp only at h ⊢
      by_cases hw : name = [] ∨ name = utf16 "*"
      · rw [if_pos hw] at h
        cases h
        rcases hw with hw | hw
        · simp [hw, wholeFileSlice]
        · subst hw
          simp [wholeFileSlice]
      · rw [if_neg hw] at h
        have hne : name ≠ [] := fun hc => hw (Or.inl hc)
        cases hns : namedSlice filePath lines (initialSlice contents lines m.indentStr.length lineNb)
            m.indentStr m.keyword name lineNb with
        | error e =>
          rw [hns] at h
          cases h
        | ok named =>
          rw [hns] at h
          cases h
          simp [hne, namedSlice_name _ _ _ _ _ _ _ _ hns]

/-- The names of the slices of a successful reduction are the names of the markers, in
line order. -/
theorem reduceLines_names (filePath contents : Str) (lines : List Str) :
    ∀ (rest : List Str) (lineNb : Nat) (validLines slices : List Slice),
      reduceLines filePath contents lines rest lineNb validLines = .ok slices →
      slices.map (fun slice => slice.name) =
        validLines.map (fun slice => slice.name) ++ rest.filterMap markerName := by
  intro rest
  induction rest with
  | nil =>
    intro lineNb validLines slices h
    simp only [reduceLines] at h
    cases h
    simp
  | cons line rest ih =>
    intro lineNb validLines slices h
    simp only [reduceLines, onLine_eq] at h
    cases hl : lineSlice filePath contents lines line lineNb with
    | error e =>
      rw [hl] at h
      cases h
    | ok o =>
      have hname := lineSlice_name _ _ _ _ _ _ hl
      rw [hl] at h
      cases o with
      | none =>
        have := ih _ _ _ h
        have hn : markerName line = none := by simpa using hname.symm
        simp [this, hn]
      | some slice =>
        have := ih _ _ _ h
        have hn : markerName line = some slice.name := by simpa using hname.symm
        simp [this, hn]

/-- Every slice that the callback adds for a line of a successful reduction is among
the slices of the file, and so is every slice found before. -/
theorem reduceLines_mem (filePath contents : Str) (lines : List Str) :
    ∀ (rest : List Str) (lineNb : Nat) (validLines slices : List Slice),
      reduceLines filePath contents lines rest lineNb validLines = .ok slices →
      (∀ s ∈ validLines, s ∈ slices) ∧
      ∀ (k : Nat) (line : Str) (slice : Slice), rest[k]? = some line →
        lineSlice filePath contents lines line (lineNb + k) = .ok (some slice) → slice ∈ slices := by
  intro rest
  induction rest with
  | nil =>
    intro lineNb validLines slices h
    simp only [reduceLines] at h
    cases h
    exact ⟨fun s hs => hs, fun k line slice hk => by simp at hk⟩
  | cons line rest ih =>
    intro lineNb validLines slices h
    simp only [reduceLines, onLine_eq] at h
    cases hl : lineSlice filePath contents lines line lineNb with
    | error e =>
      rw [hl] at h
      cases h
    | ok o =>
      rw [hl] at h
      have key : ∀ acc, reduceLines filePath contents lines rest (lineNb + 1) acc = .ok slices →
          (∀ s ∈ validLines, s ∈ acc) → (∀ s, o = some s → s ∈ acc) →
          (∀ s ∈ validLines, s ∈ slices) ∧
          ∀ (k : Nat) (line2 : Str) (slice : Slice), (line :: rest)[k]? = some line2 →
            lineSlice filePath contents lines line2 (lineNb + k) = .ok (some slice) →
            slice ∈ slices := by
        intro acc hacc hsub ho
        obtain ⟨h1, h2⟩ := ih _ _ _ hacc
        refine ⟨fun s hs => h1 s (hsub s hs), ?_⟩
        intro k line2 slice hk hs
        cases k with
        | zero =>
          simp at hk
          subst hk
          rw [Nat.add_zero, hl] at hs
          cases hs
          exact h1 _ (ho _ rfl)
        | succ k =>
          simp only [List.getElem?_cons_succ] at hk
          apply h2 k line2 slice hk
          rw [← hs]
          congr 1
          omega
      cases o with
      | none => exact key _ h (fun s hs => hs) (fun s hs => by cases hs)
      | some slice =>
        exact key _ h (fun s hs => by simp [hs]) (fun s hs => by cases hs; simp)

theorem tagRegExpMatch_groups (line : Str) (m : TagMatch) (h : tagRegExpMatch line = some m) :
    m.indentStr = line.takeWhile isWhiteSpace ∧ m.keyword = exportKeyword := by
  unfold tagRegExpMatch at h
  simp only at h
  split at h
  · split at h
    · cases hn : tagName ‹Str› with
      | none => simp [hn] at h
      | some name =>
        simp [hn] at h
        subst h
        exact ⟨rfl, rfl⟩
    · cases h
  · cases h

theorem lineSlice_whole (filePath contents : Str) (lines : List Str) (line : Str) (lineNb : Nat)
    (m : TagMatch) (hm : tagRegExpMatch line = some m)
    (hname : m.name = none ∨ m.name = some [] ∨ m.name = some (utf16 "*")) :
    lineSlice filePath contents lines line lineNb =
      .ok (some (wholeFileSlice (initialSlice contents lines m.indentStr.length lineNb) lines
        m.indentStr.length)) := by
  unfold lineSlice
  rw [hm]
  rcases hname with h | h | h <;> simp [h]

theorem lineSlice_named (filePath contents : Str) (lines : List Str) (line : Str) (lineNb : Nat)
    (m : TagMatch) (N : Str) (hm : tagRegExpMatch line = some m) (hname : m.name = some N)
    (hne : N ≠ []) (hstar : N ≠ utf16 "*") :
    lineSlice filePath contents lines line lineNb =
      match namedSlice filePath lines (initialSlice contents lines m.indentStr.length lineNb)
          m.indentStr m.keyword N lineNb with
      | .error e => .error e
      | .ok named => .ok (some named) := by
  unfold lineSlice
  rw [hm]
  simp [hname, hne, hstar]

theorem findIndex_closing (lines : List Str) (indentStr keyword N closer : Str) (i E : Nat)
    (hiE : i < E) (hcloser : lines[E]? = some closer)
    (hclose : isClosingLine indentStr keyword N closer = true)
    (hleast : ∀ j l, i < j → j < E → lines[j]? = some l →
      isClosingLine indentStr keyword N l = false) :
    ∃ re, RegExp (endRegExpSource indentStr keyword N) = .regex re ∧
      findIndex (fun line => re.test line) (lines.drop (i + 1)) = some (E - (i + 1)) := by
  unfold isClosingLine at hclose hleast
  cases hre : RegExp (endRegExpSource indentStr keyword N) with
  | syntaxError => simp [hre] at hclose
  | unmodelled => simp [hre] at hclose
  | regex re =>
    refine ⟨re, rfl, ?_⟩
    simp only [hre] at hclose hleast
    apply findIndex_eq_some _ _ _ closer
    · rw [List.getElem?_drop]
      rw [← hcloser]
      congr 1
      omega
    · exact hclose
    · intro j y hj hy
      rw [List.getElem?_drop] at hy
      exact hleast (i + 1 + j) y (by omega) (by omega) hy

/-! ## Named slices and whole-file slices -/

/-- C1: for a marker on line `i` with indentation prefix `m.indentStr` and a name `N`
that is neither empty nor `*`, if `E` is the smallest index after `i` whose line matches
the close pattern, the callback adds one slice with `all = false`, `name = N`,
`indent` the length of the prefix, `original` the lines `i+1 .. E-1` joined, `contents`
those lines each without its first `indent` characters, `before` the lines `0 .. i+1`
joined and `after` the lines from `E+1` on joined; that slice is among the slices of the
file whenever its extraction succeeds. -/
theorem named_slice_fields (filePath contents : Str) (lines : List Str)
    (validLines : List Slice) (i E : Nat) (line closer : Str) (m : TagMatch) (N : Str)
    (hline : lines[i]? = some line) (hm : tagRegExpMatch line = some m)
    (hname : m.name = some N) (hne : N ≠ []) (hstar : N ≠ utf16 "*")
    (hiE : i < E) (hcloser : lines[E]? = some closer)
    (hclose : isClosingLine m.indentStr m.keyword N closer = true)
    (hleast : ∀ j l, i < j → j < E → lines[j]? = some l →
      isClosingLine m.indentStr m.keyword N l = false) :
    ∃ slice : Slice,
      onLine filePath contents lines validLines line i = .ok (validLines ++ [slice]) ∧
      (∀ slices, sliceLines filePath contents lines = .ok slices → slice ∈ slices) ∧
      slice.all = false ∧ slice.name = N ∧ slice.indent = m.indentStr.length ∧
      slice.original = some (joinLines ((lines.take E).drop (i + 1))) ∧
      slice.contents =
        joinLines (((lines.take E).drop (i + 1)).map fun l => l.drop m.indentStr.length) ∧
      slice.before = joinLines (lines.take (i + 2)) ∧
      slice.after = joinLines (lines.drop (E + 1)) := by
  obtain ⟨re, hre, hf⟩ := findIndex_closing lines m.indentStr m.keyword N closer i E hiE hcloser
    hclose hleast
  have hns := namedSlice_of_findIndex filePath lines
    (initialSlice contents lines m.indentStr.length i) m.indentStr m.keyword N i _ re hre hf
  have hls := lineSlice_named filePath contents lines line i m N hm hname hne hstar
  rw [hns] at hls
  have hE : i + 1 + (E - (i + 1)) = E := by omega
  refine ⟨closedSlice lines (initialSlice contents lines m.indentStr.length i) m.indentStr N i
    (E - (i + 1)), ?_, ?_, rfl, rfl, rfl, ?_, ?_, ?_, ?_⟩
  · rw [onLine_eq, hls]
  · intro slices hs
    apply (reduceLines_mem filePath contents lines lines 0 [] slices hs).2 i line _ hline
    rw [Nat.zero_add]
    exact hls
  · simp only [closedSlice, sliceRange, hE]
  · simp only [closedSlice, map_drop_ite, sliceRange, hE]
  · simp only [closedSlice, sliceRange, List.drop_zero]
  · simp only [closedSlice, hE]

/-- C5: for a marker on line `i` whose name is absent, empty or `*`, the callback never
fails and adds one slice with `name = *`, `all = true`, `indent` the number of leading
whitespace characters of the marker line, `contents` every line of the file without its
first `indent` characters (the normalized text itself when `indent = 0`), empty `before`
and `after`, no `original`, `start = i` and `end` the number of lines. -/
theorem whole_file_slice_fields (filePath contents : Str) (lines : List Str)
    (validLines : List Slice) (i : Nat) (line : Str) (m : TagMatch)
    (hm : tagRegExpMatch line = some m)
    (hname : m.name = none ∨ m.name = some [] ∨ m.name = some (utf16 "*")) :
    ∃ slice : Slice,
      onLine filePath contents lines validLines line i = .ok (validLines ++ [slice]) ∧
      slice.name = utf16 "*" ∧ slice.all = true ∧
      slice.indent = (line.takeWhile isWhiteSpace).length ∧
      slice.contents = joinLines (lines.map fun l => l.drop slice.indent) ∧
      (slice.indent = 0 → lines = splitLines contents → slice.contents = contents) ∧
      slice.before = [] ∧ slice.after = [] ∧ slice.original = none ∧
      slice.start = i ∧ slice.end_ = lines.length := by
  have hls := lineSlice_whole filePath contents lines line i m hm hname
  have hind := (tagRegExpMatch_groups line m hm).1
  refine ⟨wholeFileSlice (initialSlice contents lines m.indentStr.length i) lines
    m.indentStr.length, ?_, rfl, rfl, ?_, ?_, ?_, rfl, rfl, rfl, rfl, rfl⟩
  · rw [onLine_eq, hls]
  · simp only [wholeFileSlice, initialSlice, hind]
  · simp only [wholeFileSlice, initialSlice, map_drop_ite]
  · intro h0 hl
    simp only [wholeFileSlice, initialSlice] at h0 ⊢
    rw [h0, hl]
    simp [joinLines_splitLines]

/-! ## The reduction over the files of a project -/

theorem onFile_eq (path : PathLib) (validFiles : List FileConfig) (file : Str × Str) :
    onFile path validFiles file =
      match fileRecord path file with
      | .error e => .error e
      | .ok none => .ok validFiles
      | .ok (some record) => .ok (validFiles ++ [record]) := by
  unfold onFile fileRecord
  cases extractFile file.1 file.2 with
  | error e => rfl
  | ok validSlices =>
    simp only
    split <;> rfl

theorem fileRecord_ok_iff (path : PathLib) (file : Str × Str) :
    (∃ o, fileRecord path file = .ok o) ↔ ∃ slices, extractFile file.1 file.2 = .ok slices := by
  unfold fileRecord
  cases extractFile file.1 file.2 with
  | error e => simp
  | ok validSlices =>
    simp only
    split <;> simp

theorem fileRecord_error_iff (path : PathLib) (file : Str × Str) (e : Failure) :
    fileRecord path file = .error e ↔ extractFile file.1 file.2 = .error e := by
  unfold fileRecord
  cases extractFile file.1 file.2 with
  | error e2 => simp
  | ok validSlices =>
    simp only
    split <;> simp

/-- A reduction over files succeeds exactly when every file yields a record or
nothing. -/
theorem reduceFiles_ok_iff (path : PathLib) :
    ∀ (files : List (Str × Str)) (validFiles : List FileConfig),
      (∃ result, reduceFiles path files validFiles = .ok result) ↔
        ∀ file ∈ files, ∃ o, fileRecord path file = .ok o := by
  intro files
  induction files with
  | nil => intro validFiles; simp [reduceFiles]
  | cons file rest ih =>
    intro validFiles
    simp only [reduceFiles, onFile_eq, List.mem_cons, forall_eq_or_imp]
    cases hf : fileRecord path file with
    | error e => simp
    | ok o =>
      cases o with
      | none => simpa using ih validFiles
      | some record => simpa using ih (validFiles ++ [record])

/-- A reduction over files ends with the error of the first file that fails. -/
theorem reduceFiles_error (path : PathLib) :
    ∀ (pre : List (Str × Str)) (file : Str × Str) (post : List (Str × Str)) (e : Failure)
      (validFiles : List FileConfig),
      (∀ f ∈ pre, ∃ o, fileRecord path f = .ok o) → fileRecord path file = .error e →
      reduceFiles path (pre ++ file :: post) validFiles = .error e := by
  intro pre
  induction pre with
  | nil =>
    intro file post e validFiles _ he
    simp [reduceFiles, onFile_eq, he]
  | cons f pre ih =>
    intro file post e validFiles hpre he
    obtain ⟨o, ho⟩ := hpre f (by simp)
    have hrest : ∀ g ∈ pre, ∃ o, fileRecord path g = .ok o :=
      fun g hg => hpre g (by simp [hg])
    simp only [List.cons_append, reduceFiles, onFile_eq, ho]
    cases o with
    | none => exact ih file post e _ hrest he
    | some record => exact ih file post e _ hrest he

/-- C3: `getProjectSlices` returns a manifest exactly when every candidate file
extracts without error; when a file fails after files that all extract, the run ends
with the error of that file, the first failing one in traversal order, and returns no
manifest. -/
theorem project_fails_with_first_error (path : PathLib) (files : List (Str × Str)) :
    ((∃ manifest, getProjectSlices path files = .ok manifest) ↔
      ∀ file ∈ files, ∃ slices, extractFile file.1 file.2 = .ok slices) ∧
    ∀ (pre : List (Str × Str)) (file : Str × Str) (post : List (Str × Str)) (e : Failure),
      files = pre ++ file :: post →
      (∀ f ∈ pre, ∃ slices, extractFile f.1 f.2 = .ok slices) →
      extractFile file.1 file.2 = .error e →
      getProjectSlices path files = .error e := by
  constructor
  · have h := reduceFiles_ok_iff path files []
    simp only [fileRecord_ok_iff] at h
    rw [← h]
    unfold getProjectSlices
    cases reduceFiles path files [] with
    | error e => simp
    | ok validFiles => simp
  · intro pre file post e hfiles hpre he
    subst hfiles
    have := reduceFiles_error path pre file post e []
      (fun f hf => (fileRecord_ok_iff path f).2 (hpre f hf))
      ((fileRecord_error_iff path file e).2 he)
    simp [getProjectSlices, this]

/-! ## Which files enter the manifest -/

theorem markerName_isSome (line : Str) :
    (markerName line).isSome = (tagRegExpMatch line).isSome := by
  unfold markerName
  cases tagRegExpMatch line with
  | none => rfl
  | some m =>
    simp only
    cases m.name with
    | none => rfl
    | some name =>
      simp only
      split <;> rfl

theorem filterMap_markerName_eq_nil (lines : List Str) :
    lines.filterMap markerName = [] ↔
      (lines.any fun line => (tagRegExpMatch line).isSome) = false := by
  induction lines with
  | nil => simp
  | cons line rest ih =>
    have h := markerName_isSome line
    cases hm : markerName line with
    | none =>
      rw [hm] at h
      simp [List.filterMap_cons, hm, ih, ← h]
    | some n =>
      rw [hm] at h
      simp [List.filterMap_cons, hm, ← h]

/-- The names of the slices of a file are the names of its markers, in line order. -/
theorem extractFile_names (filePath fileContents : Str) (slices : List Slice)
    (h : extractFile filePath fileContents = .ok slices) :
    slices.map (fun slice => slice.name) = (fileLines fileContents).filterMap markerName := by
  have := reduceLines_names filePath (sanitizeFileContents fileContents)
    (splitLines (sanitizeFileContents fileContents)) _ 0 [] slices h
  simpa [fileLines] using this

theorem extractFile_length_eq_zero (filePath fileContents : Str) (slices : List Slice)
    (h : extractFile filePath fileContents = .ok slices) :
    slices.length = 0 ↔ hasMarker fileContents = false := by
  have hn := extractFile_names filePath fileContents slices h
  unfold hasMarker
  rw [← filterMap_markerName_eq_nil, ← hn]
  simp

theorem fileRecord_file_path (path : PathLib) (file : Str × Str) (o : Option FileConfig)
    (h : fileRecord path file = .ok o) :
    o.toList.map (fun record => record.file_path) =
      if hasMarker file.2 then [file.1] else [] := by
  unfold fileRecord at h
  cases he : extractFile file.1 file.2 with
  | error e => simp [he] at h
  | ok validSlices =>
    have hz := extractFile_length_eq_zero _ _ _ he
    rw [he] at h
    simp only at h
    by_cases hl : validSlices.length = 0
    · rw [if_pos hl] at h
      cases h
      simp [hz.1 hl]
    · rw [if_neg hl] at h
      cases h
      have : hasMarker file.2 = true := by
        cases hh : hasMarker file.2 with
        | false => exact absurd (hz.2 hh) hl
        | true => rfl
      simp [this, fileConfig]

/-- The records of a successful reduction are those of the files with a marker, in
traversal order. -/
theorem reduceFiles_paths (path : PathLib) :
    ∀ (files : List (Str × Str)) (validFiles result : List FileConfig),
      reduceFiles path files validFiles = .ok result →
      result.map (fun record => record.file_path) =
        validFiles.map (fun record => record.file_path) ++
          (files.filter fun file => hasMarker file.2).map (fun file => file.1) := by
  intro files
  induction files with
  | nil =>
    intro validFiles result h
    simp only [reduceFiles] at h
    cases h
    simp
  | cons file rest ih =>
    intro validFiles result h
    simp only [reduceFiles, onFile_eq] at h
    cases hf : fileRecord path file with
    | error e =>
      rw [hf] at h
      cases h
    | ok o =>
      have hp := fileRecord_file_path path file o hf
      rw [hf] at h
      cases o with
      | none =>
        have := ih _ _ h
        cases hh : hasMarker file.2 with
        | false => simp [this, List.filter_cons, hh]
        | true => simp [hh] at hp
      | some record =>
        have := ih _ _ h
        cases hh : hasMarker file.2 with
        | false => simp [hh] at hp
        | true =>
          simp [hh] at hp
          simp [this, List.filter_cons, hh, hp]

theorem setProp_keys_of_not_mem {α : Type} (k : Str) (v : α) :
    ∀ (props : List (Str × α)), k ∉ props.map (fun p => p.1) →
      (setProp k v props).map (fun p => p.1) = props.map (fun p => p.1) ++ [k] := by
  intro props
  induction props with
  | nil => intro _; rfl
  | cons p ps ih =>
    intro h
    simp only [List.map_cons, List.mem_cons, not_or] at h
    have hne : ¬ p.1 = k := fun hc => h.1 hc.symm
    simp [setProp, hne, ih h.2]

/-- The paths and the keys that the second reduction adds to an accumulator. -/
theorem foldl_collectFiles (validFiles : List FileConfig) :
    ∀ (obj : Manifest),
      let result := validFiles.foldl
        (fun obj fileConfig =>
          { files := obj.files.set fileConfig.file_path fileConfig
            files_paths := obj.files_paths ++ [fileConfig.file_path] })
        obj
      result.files_paths = obj.files_paths ++ validFiles.map (fun record => record.file_path) ∧
      ((obj.files.keys ++ validFiles.map (fun record => record.file_path)).Nodup →
        (∀ record ∈ validFiles, record.file_path ≠ utf16 "__proto__") →
        result.files.keys = obj.files.keys ++ validFiles.map (fun record => record.file_path)) := by
  induction validFiles with
  | nil => intro obj; simp
  | cons record rest ih =>
    intro obj
    simp only [List.foldl_cons, List.map_cons]
    obtain ⟨h1, h2⟩ := ih
      { files := obj.files.set record.file_path record
        files_paths := obj.files_paths ++ [record.file_path] }
    refine ⟨by simpa using h1, ?_⟩
    intro hnodup hproto
    have hrec : record.file_path ≠ utf16 "__proto__" := hproto record (by simp)
    have hnot : record.file_path ∉ obj.files.keys := by
      intro hc
      have := (List.nodup_append.1 hnodup).2.2
      exact List.disjoint_left.1 this hc (by simp)
    have hkeys : (obj.files.set record.file_path record).keys =
        obj.files.keys ++ [record.file_path] := by
      simp only [JsObj.set, if_neg hrec, JsObj.keys]
      exact setProp_keys_of_not_mem _ _ _ hnot
    simp only at h2
    rw [hkeys] at h2
    have := h2 (by simpa [List.append_assoc] using hnodup)
      (fun r hr => hproto r (by simp [hr]))
    simpa [List.append_assoc] using this

/-- C4: for candidate files with pairwise distinct paths (none of them the key
`__proto__`: candidate paths end in the extension `.gd`) on which extraction succeeds,
`files_paths` is the sequence of the paths of the files that have a marker line, in
traversal order, and the keys of `files` are those same paths; a file without a marker
is in neither. -/
theorem files_paths_of_marked_files (path : PathLib) (files : List (Str × Str))
    (manifest : Manifest)
    (hdistinct : (files.map fun file => file.1).Nodup)
    (hproto : ∀ file ∈ files, file.1 ≠ utf16 "__proto__")
    (h : getProjectSlices path files = .ok manifest) :
    manifest.files_paths = (files.filter fun file => hasMarker file.2).map (fun file => file.1) ∧
    manifest.files.keys = manifest.files_paths ∧
    ∀ file ∈ files, hasMarker file.2 = false →
      file.1 ∉ manifest.files_paths ∧ file.1 ∉ manifest.files.keys := by
  unfold getProjectSlices at h
  cases hr : reduceFiles path files [] with
  | error e => simp [hr] at h
  | ok validFiles =>
    rw [hr] at h
    cases h
    have hp := reduceFiles_paths path files [] validFiles hr
    simp only [List.map_nil, List.nil_append] at hp
    obtain ⟨h1, h2⟩ := foldl_collectFiles validFiles { files_paths := [], files := JsObj.empty }
    simp only [List.nil_append] at h1
    have hsub : ((files.filter fun file => hasMarker file.2).map fun file => file.1).Sublist
        (files.map fun file => file.1) := List.Sublist.map _ (List.filter_sublist _)
    have hnodup : (validFiles.map fun record => record.file_path).Nodup := by
      rw [hp]
      exact hdistinct.sublist hsub
    have hrec : ∀ record ∈ validFiles, record.file_path ≠ utf16 "__proto__" := by
      intro record hmem
      have : record.file_path ∈ validFiles.map fun record => record.file_path :=
        List.mem_map_of_mem _ hmem
      rw [hp] at this
      obtain ⟨file, hfile, hfp⟩ := List.mem_map.1 this
      rw [← hfp]
      exact hproto file (List.mem_filter.1 hfile).1
    have hk := h2 (by simpa [JsObj.keys, JsObj.empty] using hnodup) hrec
    simp only [JsObj.keys, JsObj.empty, List.map_nil, List.nil_append] at hk
    have hpaths : (collectFiles validFiles).files_paths =
        (files.filter fun file => hasMarker file.2).map (fun file => file.1) := by
      unfold collectFiles
      rw [h1, hp]
    have hkeys : (collectFiles validFiles).files.keys = (collectFiles validFiles).files_paths := by
      unfold collectFiles
      rw [h1]
      exact hk
    refine ⟨hpaths, hkeys, ?_⟩
    intro file hfile hno
    have hnot : file.1 ∉ (collectFiles validFiles).files_paths := by
      rw [hpaths]
      intro hc
      obtain ⟨g, hg, hgp⟩ := List.mem_map.1 hc
      have hg2 := List.mem_filter.1 hg
      have : g = file := List.inj_on_of_nodup_map hdistinct hg2.1 hfile hgp
      rw [this, hno] at hg2
      exact absurd hg2.2 (by simp)
    exact ⟨hnot, by rw [hkeys]; exact hnot⟩

theorem foldl_collectSlices (validSlices : List Slice) :
    ∀ (obj : SliceTable),
      (validSlices.foldl
        (fun obj slice =>
          { slices := obj.slices.set slice.name slice
            slices_names := obj.slices_names ++ [slice.name] })
        obj).slices_names = obj.slices_names ++ validSlices.map (fun slice => slice.name) := by
  induction validSlices with
  | nil => intro obj; simp
  | cons slice rest ih =>
    intro obj
    simp only [List.foldl_cons, List.map_cons]
    rw [ih]
    simp

theorem fileConfig_slices_names (path : PathLib) (filePath : Str) (validSlices : List Slice) :
    (fileConfig path filePath validSlices).slices_names =
      validSlices.map (fun slice => slice.name) := by
  simp [fileConfig, collectSlices, foldl_collectSlices]

/-- C9, amended: for every file on which extraction succeeds, `slices_names` holds the
names of the markers of the file in line order, one entry per marker line, so a name
carried by several markers occurs once for each of them. -/
theorem slices_names_follow_markers (path : PathLib) (filePath fileContents : Str)
    (slices : List Slice) (h : extractFile filePath fileContents = .ok slices) :
    (fileConfig path filePath slices).slices_names =
      (fileLines fileContents).filterMap markerName := by
  rw [fileConfig_slices_names, extractFile_names filePath fileContents slices h]

theorem drop_length_of_isPrefixOf (pre : Str) :
    ∀ (l : Str), pre <+: l → pre ++ l.drop pre.length = l := by
  intro l h
  obtain ⟨t, rfl⟩ := h
  simp

/-- C7, amended: for every named slice, `original` is the captured lines joined and
`contents` is the captured lines each without its first `indent` characters, joined;
when every captured line begins with the indentation prefix of the opening marker,
prepending that prefix to each of these lines of `contents` gives the captured lines
back. -/
theorem named_slice_round_trip (filePath contents : Str) (lines : List Str) (line : Str)
    (i : Nat) (slice : Slice)
    (h : onLine filePath contents lines [] line i = .ok [slice]) (hnamed : slice.all = false) :
    ∃ captured : List Str,
      captured = (lines.take slice.end_).drop (i + 1) ∧
      slice.original = some (joinLines captured) ∧
      slice.indent = (line.takeWhile isWhiteSpace).length ∧
      slice.contents = joinLines (captured.map fun l => l.drop slice.indent) ∧
      ((∀ l ∈ captured, line.takeWhile isWhiteSpace <+: l) →
        (captured.map fun l => l.drop slice.indent).map
          (fun l => line.takeWhile isWhiteSpace ++ l) = captured) := by
  rw [onLine_eq] at h
  unfold lineSlice at h
  cases hm : tagRegExpMatch line with
  | none => simp [hm] at h
  | some m =>
    have hind := (tagRegExpMatch_groups line m hm).1
    rw [hm] at h
    simp only at h
    cases hn : m.name with
    | none =>
      rw [hn] at h
      simp only [List.nil_append] at h
      cases h
      simp [wholeFileSlice, initialSlice] at hnamed
    | some name =>
      rw [hn] at h
      simp only at h
      by_cases hw : name = [] ∨ name = utf16 "*"
      · rw [if_pos hw] at h
        simp only [List.nil_append] at h
        cases h
        simp [wholeFileSlice, initialSlice] at hnamed
      · rw [if_neg hw] at h
        cases hns : namedSlice filePath lines (initialSlice contents lines m.indentStr.length i)
            m.indentStr m.keyword name i with
        | error e => simp [hns] at h
        | ok named =>
          rw [hns] at h
          simp only [List.nil_append] at h
          cases h
          obtain ⟨re, e, _, _, rfl⟩ := namedSlice_ok _ _ _ _ _ _ _ _ hns
          refine ⟨(lines.take (i + 1 + e)).drop (i + 1), rfl, rfl, ?_, ?_, ?_⟩
          · simp only [closedSlice, initialSlice, hind]
          · simp only [closedSlice, initialSlice, map_drop_ite, sliceRange]
          · intro hpre
            simp only [closedSlice, initialSlice, List.map_map]
            rw [hind]
            conv_rhs => rw [← List.map_id ((lines.take (i + 1 + e)).drop (i + 1))]
            apply List.map_congr_left
            intro l hl
            exact drop_length_of_isPrefixOf _ l (hpre l hl)

/-! ## Concrete files -/

theorem isOk_exists {ε α : Type} (r : Except ε α) (h : r.isOk = true) : ∃ a, r = .ok a := by
  cases r with
  | error e => simp [Except.isOk, Except.toBool] at h
  | ok a => exact ⟨a, rfl⟩

theorem named_slice_fields_witness :
    ∃ slice : Slice,
      onLine (utf16 "demo.gd") demoText demoLines [] (utf16 "# EXPORT demo") 0 = .ok [slice] ∧
      slice.before = utf16 "# EXPORT demo\nline one" ∧
      slice.original = some (utf16 "line one\nline two") ∧
      slice.after = [] := by
  obtain ⟨slice, h1, _, _, _, _, h5, _, h7, h8⟩ :=
    named_slice_fields (utf16 "demo.gd") demoText demoLines [] 0 3 (utf16 "# EXPORT demo")
      (utf16 "# /EXPORT demo") ⟨[], exportKeyword, some (utf16 "demo")⟩ (utf16 "demo")
      (by decide) (by decide) rfl (by decide) (by decide) (by decide) (by decide) (by decide)
      (by
        intro j l h1 h2 hl
        interval_cases j
        · have : l = utf16 "line one" := by simpa [demoLines] using hl.symm
          subst this
          decide
        · have : l = utf16 "line two" := by simpa [demoLines] using hl.symm
          subst this
          decide)
  refine ⟨slice, h1, ?_, ?_, ?_⟩
  · rw [h7]; decide
  · rw [h5]; decide
  · rw [h8]; decide

theorem whole_file_slice_fields_witness :
    ∃ slice : Slice,
      onLine (utf16 "w.gd") wholeText (splitLines wholeText) [] (utf16 "\t# EXPORT") 0 =
        .ok [slice] ∧
      slice.indent = 1 ∧ slice.contents = utf16 "# EXPORT\nvar x = 1" := by
  obtain ⟨slice, h1, _, _, h4, h5, _⟩ :=
    whole_file_slice_fields (utf16 "w.gd") wholeText (splitLines wholeText) [] 0
      (utf16 "\t# EXPORT") ⟨utf16 "\t", exportKeyword, none⟩ (by decide) (Or.inl rfl)
  have hi : slice.indent = 1 := by rw [h4]; decide
  refine ⟨slice, h1, hi, ?_⟩
  rw [h5, hi]
  decide

/-- C2: the file `parenText` has the named marker `(`; `RegExp` rejects the pattern
built from that name, so the run ends with the `SyntaxError` of `RegExp`, whose message
is not the one that names the file and the slice. -/
theorem paren_name_syntax_error :
    extractFile (utf16 "levels/a.gd") parenText =
      .error (.regExpSyntaxError (utf16 "^# \\/EXPORT (\\s*$")) := by
  decide

theorem project_fails_with_first_error_witness :
    getProjectSlices examplePath
      [(utf16 "a.gd", demoText), (utf16 "b.gd", utf16 "# EXPORT foo\nbody"),
       (utf16 "c.gd", utf16 "# EXPORT bar")] =
      .error (.missingClosingTag (closingTagMessage (utf16 "b.gd") (utf16 "foo"))) :=
  (project_fails_with_first_error examplePath
      [(utf16 "a.gd", demoText), (utf16 "b.gd", utf16 "# EXPORT foo\nbody"),
       (utf16 "c.gd", utf16 "# EXPORT bar")]).2
    [(utf16 "a.gd", demoText)] (utf16 "b.gd", utf16 "# EXPORT foo\nbody")
    [(utf16 "c.gd", utf16 "# EXPORT bar")] _ rfl
    (by
      intro f hf
      have : f = (utf16 "a.gd", demoText) := by simpa using hf
      subst this
      exact isOk_exists _ (by decide))
    (by decide)

theorem files_paths_of_marked_files_witness :
    ∃ manifest : Manifest,
      getProjectSlices examplePath
        [(utf16 "a.gd", utf16 "# EXPORT a\nbody\n# /EXPORT a"), (utf16 "b.gd", plainText)] =
        .ok manifest ∧
      manifest.files_paths = [utf16 "a.gd"] ∧ manifest.files.keys = [utf16 "a.gd"] := by
  obtain ⟨manifest, h⟩ := isOk_exists (getProjectSlices examplePath
      [(utf16 "a.gd", utf16 "# EXPORT a\nbody\n# /EXPORT a"), (utf16 "b.gd", plainText)])
    (by decide)
  · obtain ⟨h1, h2, _⟩ := files_paths_of_marked_files examplePath
      [(utf16 "a.gd", utf16 "# EXPORT a\nbody\n# /EXPORT a"), (utf16 "b.gd", plainText)] manifest
      (by decide) (by decide) h
    have hp : manifest.files_paths = [utf16 "a.gd"] := by rw [h1]; decide
    exact ⟨manifest, h, hp, by rw [h2, hp]⟩

/-- C6: on the example of the specification the slice does not have `end = 4`. -/
theorem demo_end_is_not_four :
    ¬ ∃ slice : Slice, extractFile (utf16 "demo.gd") demoText = .ok [slice] ∧
      slice.name = utf16 "demo" ∧ slice.start = 2 ∧ slice.end_ = 4 ∧
      slice.contents = utf16 "line one\nline two" ∧ slice.indent = 0 := by
  have hd : extractFile (utf16 "demo.gd") demoText =
      .ok [{ all := false, name := utf16 "demo", before := utf16 "# EXPORT demo\nline one",
             after := [], contents := utf16 "line one\nline two", indent := 0, start := 2,
             end_ := 3, original := some (utf16 "line one\nline two") }] := by decide
  rintro ⟨slice, h, _, _, h4, _⟩
  rw [hd] at h
  injection h with h
  injection h with h
  subst h
  exact absurd h4 (by decide)

/-- C6, amended: the example of the specification, with or without a trailing line feed,
yields exactly one slice, named `demo`, with `start = 2`, `end = 3`,
`contents = "line one\nline two"` and `indent = 0`. -/
theorem demo_slice (filePath : Str) :
    extractFile filePath demoText =
      .ok [{ all := false, name := utf16 "demo", before := utf16 "# EXPORT demo\nline one",
             after := [], contents := utf16 "line one\nline two", indent := 0, start := 2,
             end_ := 3, original := some (utf16 "line one\nline two") }] ∧
    extractFile filePath demoTextLF =
      .ok [{ all := false, name := utf16 "demo", before := utf16 "# EXPORT demo\nline one",
             after := [], contents := utf16 "line one\nline two", indent := 0, start := 2,
             end_ := 3, original := some (utf16 "line one\nline two") }] := by
  constructor <;> rfl

/-- C7: in `blankLineText` the captured blank line does not begin with the tab of the
marker, and prepending `indent` tabs to each line of `contents` gives a text other than
`original`. -/
theorem round_trip_fails_on_blank_line :
    ∃ slice : Slice, ∃ original : Str,
      extractFile (utf16 "a.gd") blankLineText = .ok [slice] ∧
      slice.original = some original ∧
      reindent slice.indent slice.contents ≠ original :=
  ⟨{ all := false, name := utf16 "a", before := utf16 "\t# EXPORT a\n\tx", after := [],
     contents := utf16 "x\n\ny", indent := 1, start := 2, end_ := 4,
     original := some (utf16 "\tx\n\n\ty") },
   utf16 "\tx\n\n\ty", by decide, rfl, by decide⟩

theorem named_slice_round_trip_witness :
    ∃ slice : Slice,
      onLine (utf16 "a.gd") [] (utf16 "\t# EXPORT a" :: utf16 "\tx" :: [utf16 "\t# /EXPORT a"]) []
        (utf16 "\t# EXPORT a") 0 = .ok [slice] ∧
      (List.map (fun l => List.drop slice.indent l) [utf16 "\tx"]).map (fun l => utf16 "\t" ++ l) =
        [utf16 "\tx"] := by
  have hs : onLine (utf16 "a.gd") []
      (utf16 "\t# EXPORT a" :: utf16 "\tx" :: [utf16 "\t# /EXPORT a"]) [] (utf16 "\t# EXPORT a") 0 =
      .ok [{ all := false, name := utf16 "a", before := utf16 "\t# EXPORT a\n\tx", after := [],
             contents := utf16 "x", indent := 1, start := 2, end_ := 2,
             original := some (utf16 "\tx") }] := by decide
  obtain ⟨captured, hc, _, _, _, hround⟩ := named_slice_round_trip (utf16 "a.gd") []
    (utf16 "\t# EXPORT a" :: utf16 "\tx" :: [utf16 "\t# /EXPORT a"]) (utf16 "\t# EXPORT a") 0 _ hs
    rfl
  have hcap : captured = [utf16 "\tx"] := by rw [hc]; decide
  subst hcap
  exact ⟨_, hs, hround (by decide)⟩

/-- C8: on the example of the specification `before` ends with the first captured
line, which `original` holds as well, so the lines of `before`, of `original`, the
closing line and the lines after it are not the lines of the file. -/
theorem before_repeats_first_captured_line :
    ∃ slice : Slice,
      extractFile (utf16 "demo.gd") demoText = .ok [slice] ∧
      slice.before = utf16 "# EXPORT demo\nline one" ∧
      slice.original = some (utf16 "line one\nline two") ∧
      splitLines slice.before ++ splitLines (utf16 "line one\nline two") ++
        [utf16 "# /EXPORT demo"] ++ demoLines.drop (slice.end_ + 1) ≠ demoLines :=
  ⟨{ all := false, name := utf16 "demo", before := utf16 "# EXPORT demo\nline one",
     after := [], contents := utf16 "line one\nline two", indent := 0, start := 2,
     end_ := 3, original := some (utf16 "line one\nline two") },
   by decide, rfl, rfl, by decide⟩

/-- C9: in `twiceText` two markers carry the name `a`, and `slices_names` holds that name
twice. -/
theorem slices_names_repeat_a_name :
    ∃ slices : List Slice,
      extractFile (utf16 "a.gd") twiceText = .ok slices ∧
      (fileConfig examplePath (utf16 "a.gd") slices).slices_names = [utf16 "a", utf16 "a"] ∧
      ¬ (fileConfig examplePath (utf16 "a.gd") slices).slices_names.Nodup := by
  obtain ⟨slices, h⟩ := isOk_exists (extractFile (utf16 "a.gd") twiceText) (by decide)
  have hn : (fileConfig examplePath (utf16 "a.gd") slices).slices_names =
      [utf16 "a", utf16 "a"] := by
    rw [fileConfig_slices_names, extractFile_names _ _ _ h]
    decide
  exact ⟨slices, h, hn, by rw [hn]; decide⟩

theorem slices_names_follow_markers_witness :
    ∃ slices : List Slice,
      extractFile (utf16 "a.gd") twiceText = .ok slices ∧
      (fileConfig examplePath (utf16 "a.gd") slices).slices_names = [utf16 "a", utf16 "a"] := by
  obtain ⟨slices, h⟩ := isOk_exists (extractFile (utf16 "a.gd") twiceText) (by decide)
  refine ⟨slices, h, ?_⟩
  rw [slices_names_follow_markers examplePath (utf16 "a.gd") twiceText slices h]
  decide

/-- C10: in `protoText` the only marker is named `__proto__`; the assignment
`obj.slices["__proto__"] = slice` replaces the prototype of the table and adds no
property, so the table has no key although `slices_names` holds the name. -/
theorem proto_name_is_not_a_key :
    ∃ slices : List Slice,
      extractFile (utf16 "a.gd") protoText = .ok slices ∧
      (fileConfig examplePath (utf16 "a.gd") slices).slices_names = [utf16 "__proto__"] ∧
      (fileConfig examplePath (utf16 "a.gd") slices).slices.keys = [] ∧
      (fileConfig examplePath (utf16 "a.gd") slices).slices.get? (utf16 "__proto__") = none :=
  ⟨[{ all := false, name := utf16 "__proto__", before := utf16 "# EXPORT __proto__\nbody",
      after := [], contents := utf16 "body", indent := 0, start := 2, end_ := 2,
      original := some (utf16 "body") }],
   by decide, by decide, by decide, by decide⟩

/-! ## When extraction fails -/

theorem findIndex_eq_none_iff {α : Type} (p : α → Bool) (xs : List α) :
    findIndex p xs = none ↔ ∀ x ∈ xs, p x = false := by
  induction xs with
  | nil => simp [findIndex]
  | cons a as ih =>
    cases hp : p a with
    | true => simp [findIndex, hp]
    | false => simp [findIndex, hp, ih]

theorem isClosingLine_of_regex (indentStr keyword name line : Str) (re : Re)
    (hre : RegExp (endRegExpSource indentStr keyword name) = .regex re) :
    isClosingLine indentStr keyword name line = re.test line := by
  simp [isClosingLine, hre]

/-- A named marker yields no slice exactly when no line after it matches its close
pattern, in the sense of `isClosingLine`. -/
theorem namedSlice_error_iff (filePath : Str) (lines : List Str) (slice : Slice)
    (indentStr keyword name : Str) (lineNb : Nat) :
    (∃ e, namedSlice filePath lines slice indentStr keyword name lineNb = .error e) ↔
      ∀ l ∈ lines.drop (lineNb + 1), isClosingLine indentStr keyword name l = false := by
  cases hre : RegExp (endRegExpSource indentStr keyword name) with
  | syntaxError => simp [namedSlice, isClosingLine, hre]
  | unmodelled => simp [namedSlice, isClosingLine, hre]
  | regex re =>
    simp only [isClosingLine_of_regex _ _ _ _ re hre]
    rw [← findIndex_eq_none_iff]
    cases hf : findIndex (fun line => re.test line) (lines.drop (lineNb + 1)) with
    | none => simp [namedSlice, hre, hf]
    | some e => simp [namedSlice_of_findIndex _ _ _ _ _ _ _ _ _ hre hf]

/-- With a valid close pattern, the failure of a named marker is the error whose message
names the file and the slice. -/
theorem namedSlice_error_message (filePath : Str) (lines : List Str) (slice : Slice)
    (indentStr keyword name : Str) (lineNb : Nat) (re : Re) (e : Failure)
    (hre : RegExp (endRegExpSource indentStr keyword name) = .regex re)
    (h : namedSlice filePath lines slice indentStr keyword name lineNb = .error e) :
    e = .missingClosingTag (closingTagMessage filePath name) ∧
      filePath <:+: closingTagMessage filePath name ∧
      name <:+: closingTagMessage filePath name := by
  refine ⟨?_, ?_, ?_⟩
  · cases hf : findIndex (fun line => re.test line) (lines.drop (lineNb + 1)) with
    | none =>
      simp only [namedSlice, hre, hf] at h
      cases h
      rfl
    | some e2 =>
      rw [namedSlice_of_findIndex _ _ _ _ _ _ _ _ _ hre hf] at h
      cases h
  · exact ⟨[], utf16 ": The slice \"" ++ name ++ utf16 "\" does not have a closing tag",
      by simp [closingTagMessage]⟩
  · exact ⟨filePath ++ utf16 ": The slice \"", utf16 "\" does not have a closing tag",
      by simp [closingTagMessage]⟩

theorem lineSlice_error_iff (filePath contents : Str) (lines : List Str) (line : Str)
    (lineNb : Nat) :
    (∃ e, lineSlice filePath contents lines line lineNb = .error e) ↔
      ∃ m N, tagRegExpMatch line = some m ∧ m.name = some N ∧ N ≠ [] ∧ N ≠ utf16 "*" ∧
        ∀ l ∈ lines.drop (lineNb + 1), isClosingLine m.indentStr m.keyword N l = false := by
  cases hm : tagRegExpMatch line with
  | none => simp [lineSlice, hm]
  | some m =>
    cases hn : m.name with
    | none => simp [lineSlice, hm, hn]
    | some N =>
      by_cases hw : N = [] ∨ N = utf16 "*"
      · have : ¬ (N ≠ [] ∧ N ≠ utf16 "*") := by
          rintro ⟨h1, h2⟩
          rcases hw with h | h
          · exact h1 h
          · exact h2 h
        simp only [lineSlice, hm, hn, if_pos hw]
        constructor
        · rintro ⟨e, he⟩
          cases he
        · rintro ⟨m2, N2, hm2, hn2, h1, h2, _⟩
          cases hm2
          rw [hn] at hn2
          cases hn2
          exact absurd ⟨h1, h2⟩ this
      · have hne : N ≠ [] := fun hc => hw (Or.inl hc)
        have hstar : N ≠ utf16 "*" := fun hc => hw (Or.inr hc)
        rw [lineSlice_named filePath contents lines line lineNb m N hm hn hne hstar]
        have key := namedSlice_error_iff filePath lines
          (initialSlice contents lines m.indentStr.length lineNb) m.indentStr m.keyword N lineNb
        constructor
        · rintro ⟨e, he⟩
          refine ⟨m, N, rfl, hn, hne, hstar, key.1 ?_⟩
          cases hns : namedSlice filePath lines
              (initialSlice contents lines m.indentStr.length lineNb) m.indentStr m.keyword N
              lineNb with
          | error e2 => exact ⟨e2, rfl⟩
          | ok named => simp [hns] at he
        · rintro ⟨m2, N2, hm2, hn2, _, _, hall⟩
          cases hm2
          rw [hn] at hn2
          cases hn2
          obtain ⟨e, he⟩ := key.2 hall
          exact ⟨e, by simp [he]⟩

theorem reduceLines_error_iff (filePath contents : Str) (lines : List Str) :
    ∀ (rest : List Str) (lineNb : Nat) (validLines : List Slice),
      (∃ e, reduceLines filePath contents lines rest lineNb validLines = .error e) ↔
        ∃ k line, rest[k]? = some line ∧
          ∃ e, lineSlice filePath contents lines line (lineNb + k) = .error e := by
  intro rest
  induction rest with
  | nil => intro lineNb validLines; simp [reduceLines]
  | cons line rest ih =>
    intro lineNb validLines
    simp only [reduceLines, onLine_eq]
    have hshift : ∀ acc,
        (∃ e, reduceLines filePath contents lines rest (lineNb + 1) acc = .error e) ↔
          ∃ k line2, rest[k]? = some line2 ∧
            ∃ e, lineSlice filePath contents lines line2 (lineNb + (k + 1)) = .error e := by
      intro acc
      rw [ih]
      constructor
      · rintro ⟨k, l, hk, e, he⟩
        exact ⟨k, l, hk, e, by rw [← he]; congr 1; omega⟩
      · rintro ⟨k, l, hk, e, he⟩
        exact ⟨k, l, hk, e, by rw [← he]; congr 1; omega⟩
    cases hl : lineSlice filePath contents lines line lineNb with
    | error e =>
      constructor
      · intro _
        exact ⟨0, line, by simp, e, by simpa using hl⟩
      · intro _
        exact ⟨e, rfl⟩
    | ok o =>
      have hrest : (∃ k line2, (line :: rest)[k]? = some line2 ∧
            ∃ e, lineSlice filePath contents lines line2 (lineNb + k) = .error e) ↔
          ∃ k line2, rest[k]? = some line2 ∧
            ∃ e, lineSlice filePath contents lines line2 (lineNb + (k + 1)) = .error e := by
        constructor
        · rintro ⟨k, l, hk, e, he⟩
          cases k with
          | zero =>
            simp at hk
            subst hk
            rw [Nat.add_zero, hl] at he
            cases he
          | succ k => exact ⟨k, l, by simpa using hk, e, he⟩
        · rintro ⟨k, l, hk, e, he⟩
          exact ⟨k + 1, l, by simpa using hk, e, he⟩
      rw [hrest]
      cases o with
      | none => exact hshift _
      | some slice => exact hshift _

/-- The extraction of a file ends without slices exactly when the file has a marker with
a name that is neither empty nor `*` for which no later line matches its close pattern.
A name that makes no valid pattern has no matching line, and neither has, in this model,
a name whose pattern is outside the modelled part of the pattern language. -/
theorem sliceLines_error_iff (filePath contents : Str) (lines : List Str) :
    (∃ e, sliceLines filePath contents lines = .error e) ↔
      ∃ i line m N, lines[i]? = some line ∧ tagRegExpMatch line = some m ∧
        m.name = some N ∧ N ≠ [] ∧ N ≠ utf16 "*" ∧
        ∀ l ∈ lines.drop (i + 1), isClosingLine m.indentStr m.keyword N l = false := by
  unfold sliceLines
  rw [reduceLines_error_iff]
  simp only [Nat.zero_add, lineSlice_error_iff]
  constructor
  · rintro ⟨k, line, hk, m, N, h⟩
    exact ⟨k, line, m, N, hk, h⟩
  · rintro ⟨k, line, m, N, hk, h⟩
    exact ⟨k, line, hk, m, N, h⟩

/-! ## The table of slices -/

theorem getProp_setProp {α : Type} (k k2 : Str) (v : α) (props : List (Str × α)) :
    getProp k (setProp k2 v props) = if k = k2 then some v else getProp k props := by
  induction props with
  | nil =>
    by_cases h : k = k2
    · simp [setProp, getProp, h]
    · have h2 : ¬ k2 = k := fun hc => h hc.symm
      simp [setProp, getProp, h, h2]
  | cons p ps ih =>
    by_cases hp : p.1 = k2
    · by_cases h : k = k2
      · simp [setProp, getProp, hp, h]
      · have h2 : ¬ k2 = k := fun hc => h hc.symm
        simp [setProp, getProp, hp, h, h2]
    · by_cases hk : p.1 = k
      · have h : ¬ k = k2 := fun hc => hp (hk.trans hc)
        simp [setProp, getProp, hp, hk, h]
      · simp [setProp, getProp, hp, hk, ih]

theorem mem_keys_setProp {α : Type} (k k2 : Str) (v : α) (props : List (Str × α)) :
    k ∈ (setProp k2 v props).map (fun p => p.1) ↔ k = k2 ∨ k ∈ props.map (fun p => p.1) := by
  induction props with
  | nil => simp [setProp]
  | cons p ps ih =>
    by_cases hp : p.1 = k2
    · have hset : setProp k2 v (p :: ps) = (k2, v) :: ps := by simp [setProp, hp]
      rw [hset]
      simp only [List.map_cons, List.mem_cons, hp]
      tauto
    · have hset : setProp k2 v (p :: ps) = p :: setProp k2 v ps := by simp [setProp, hp]
      rw [hset]
      simp only [List.map_cons, List.mem_cons, ih]
      tauto

theorem nodup_keys_setProp {α : Type} (k : Str) (v : α) (props : List (Str × α))
    (h : (props.map fun p => p.1).Nodup) : ((setProp k v props).map fun p => p.1).Nodup := by
  induction props with
  | nil => simp [setProp]
  | cons p ps ih =>
    simp only [List.map_cons, List.nodup_cons] at h
    by_cases hp : p.1 = k
    · have hset : setProp k v (p :: ps) = (k, v) :: ps := by simp [setProp, hp]
      rw [hset]
      simp only [List.map_cons, List.nodup_cons]
      exact ⟨hp ▸ h.1, h.2⟩
    · have hset : setProp k v (p :: ps) = p :: setProp k v ps := by simp [setProp, hp]
      rw [hset]
      simp only [List.map_cons, List.nodup_cons, mem_keys_setProp]
      exact ⟨fun hc => hc.elim hp h.1, ih h.2⟩

theorem get?_set {α : Type} (o : JsObj α) (k2 k : Str) (v : α) (hk : k ≠ utf16 "__proto__") :
    (o.set k2 v).get? k = if k2 = k then some v else o.get? k := by
  unfold JsObj.set
  by_cases hs : k2 = utf16 "__proto__"
  · have hne : ¬ k2 = k := fun hc => hk (hc ▸ hs)
    rw [if_pos hs, if_neg hne]
    rfl
  · rw [if_neg hs]
    show getProp k (setProp k2 v o.props) = _
    rw [getProp_setProp]
    by_cases hsk : k2 = k
    · rw [if_pos hsk, if_pos hsk.symm]
    · rw [if_neg hsk, if_neg (fun hc => hsk hc.symm)]
      rfl

theorem mem_keys_set {α : Type} (o : JsObj α) (k2 k : Str) (v : α)
    (hk : k ≠ utf16 "__proto__") :
    k ∈ (o.set k2 v).keys ↔ k = k2 ∨ k ∈ o.keys := by
  unfold JsObj.set
  by_cases hs : k2 = utf16 "__proto__"
  · have hne : ¬ k = k2 := fun hc => hk (hc.trans hs)
    rw [if_pos hs]
    show k ∈ o.keys ↔ _
    tauto
  · rw [if_neg hs]
    exact mem_keys_setProp k k2 v o.props

theorem nodup_keys_set {α : Type} (o : JsObj α) (k2 : Str) (v : α) (h : o.keys.Nodup) :
    (o.set k2 v).keys.Nodup := by
  unfold JsObj.set
  by_cases hs : k2 = utf16 "__proto__"
  · rw [if_pos hs]
    exact h
  · rw [if_neg hs]
    exact nodup_keys_setProp k2 v o.props h

/-- What the reduction over the slices of a file leaves in the table for a name other
than `__proto__`: the last slice of that name, or what the table held before. -/
theorem foldl_collectSlices_table (validSlices : List Slice) (k : Str)
    (hk : k ≠ utf16 "__proto__") :
    ∀ (obj : SliceTable),
      let result := validSlices.foldl
        (fun obj slice =>
          { slices := obj.slices.set slice.name slice
            slices_names := obj.slices_names ++ [slice.name] })
        obj
      result.slices.get? k = (lastNamed k validSlices).or (obj.slices.get? k) ∧
      (k ∈ result.slices.keys ↔
        k ∈ obj.slices.keys ∨ k ∈ validSlices.map (fun slice => slice.name)) ∧
      (obj.slices.keys.Nodup → result.slices.keys.Nodup) := by
  induction validSlices with
  | nil => intro obj; simp [lastNamed]
  | cons slice rest ih =>
    intro obj
    simp only [List.foldl_cons]
    obtain ⟨h1, h2, h3⟩ := ih
      { slices := obj.slices.set slice.name slice
        slices_names := obj.slices_names ++ [slice.name] }
    simp only at h1 h2 h3
    have hget := get?_set obj.slices slice.name k slice hk
    have hmem := mem_keys_set obj.slices slice.name k slice hk
    have hnd := nodup_keys_set obj.slices slice.name slice
    refine ⟨?_, ?_, fun hn => h3 (hnd hn)⟩
    · rw [h1, hget]
      simp only [lastNamed, List.reverse_cons, List.find?_append, List.find?_singleton]
      cases List.find? (fun s => decide (s.name = k)) rest.reverse with
      | some s => simp
      | none =>
        by_cases hsk : slice.name = k
        · simp [hsk]
        · simp [hsk]
    · rw [h2, hmem]
      simp only [List.map_cons, List.mem_cons]
      tauto

/-- Last-wins, for the names other than `__proto__`: the table of a file holds under
each such name the last slice of that name, its keys are the names of the slices, and
no key occurs twice. -/
theorem slices_table_last_wins (path : PathLib) (filePath : Str) (validSlices : List Slice)
    (k : Str) (hk : k ≠ utf16 "__proto__") :
    (fileConfig path filePath validSlices).slices.get? k = lastNamed k validSlices ∧
    (k ∈ (fileConfig path filePath validSlices).slices.keys ↔
      k ∈ validSlices.map (fun slice => slice.name)) ∧
    (fileConfig path filePath validSlices).slices.keys.Nodup := by
  obtain ⟨h1, h2, h3⟩ := foldl_collectSlices_table validSlices k hk
    { slices := JsObj.empty, slices_names := [] }
  simp only [JsObj.get?, JsObj.empty, getProp, Option.or_none, JsObj.keys, List.map_nil,
    List.not_mem_nil, false_or, List.nodup_nil, true_implies] at h1 h2 h3
  exact ⟨by simpa [fileConfig, collectSlices, JsObj.get?, JsObj.empty] using h1,
    by simpa [fileConfig, collectSlices, JsObj.keys, JsObj.empty] using h2,
    by simpa [fileConfig, collectSlices, JsObj.keys, JsObj.empty] using h3⟩

/-! ## Leading spaces, names with pattern syntax -/

/-- C11: in `spacesText` the second line begins with two spaces; the pattern
`/^(  +)/g` has no `m` flag and matches at the start of the text only, so the line keeps
its spaces. -/
theorem second_line_keeps_spaces :
    sanitizeFileContents spacesText = utf16 "extends Node\n  var x = 1" ∧
    sanitizeFileContents spacesText ≠ utf16 "extends Node\n\t\tvar x = 1" := by
  decide

/-- C12: in `firstLineIndentText` the opening marker, the captured line and the closing
marker all begin with two spaces and the marker is on the first line; only the spaces of
the first line become tabs, the closing line no longer matches the indentation of the
marker, and the run ends with the error of a missing closing tag. The same slice on the
second line is extracted with `indent = 2`. -/
theorem first_line_marker_loses_its_closer :
    extractFile (utf16 "a.gd") firstLineIndentText =
      .error (.missingClosingTag (closingTagMessage (utf16 "a.gd") (utf16 "a"))) ∧
    extractFile (utf16 "a.gd") secondLineIndentText =
      .ok [{ all := false, name := utf16 "a", before := utf16 "extends Node\n  # EXPORT a\n  x",
             after := [], contents := utf16 "x", indent := 2, start := 3, end_ := 3,
             original := some (utf16 "  x") }] := by
  decide

/-- C14: for the name `a+b` the close pattern reads `a+b` as one or more `a` followed by
`b`: the line `# /EXPORT a+b` does not match it, the line `# /EXPORT aab` does, and the
file `plusText`, whose marker is followed by `# /EXPORT a+b`, ends with the error of a
missing closing tag. -/
theorem plus_name_is_read_as_pattern :
    isClosingLine [] exportKeyword (utf16 "a+b") (utf16 "# /EXPORT a+b") = false ∧
    isClosingLine [] exportKeyword (utf16 "a+b") (utf16 "# /EXPORT aab") = true ∧
    extractFile (utf16 "a.gd") plusText =
      .error (.missingClosingTag (closingTagMessage (utf16 "a.gd") (utf16 "a+b"))) := by
  decide

/-! ## Line numbers of a named slice -/

theorem findIndex_lt {α : Type} (p : α → Bool) :
    ∀ (xs : List α) (e : Nat), findIndex p xs = some e → e < xs.length := by
  intro xs
  induction xs with
  | nil => intro e h; simp [findIndex] at h
  | cons a as ih =>
    intro e h
    cases hp : p a with
    | true =>
      simp [findIndex, hp] at h
      subst h
      simp
    | false =>
      simp only [findIndex, hp, Bool.false_eq_true, if_false, Option.map_eq_some'] at h
      obtain ⟨e2, he2, rfl⟩ := h
      have := ih e2 he2
      simp only [List.length_cons]
      omega

theorem length_captured (lines : List Str) (i e : Nat) (h : e < (lines.drop (i + 1)).length) :
    ((lines.take (i + 1 + e)).drop (i + 1)).length = e := by
  simp only [List.length_drop, List.length_take] at h ⊢
  omega

/-- A slice with `all = false` that the callback adds is the slice of a named marker
whose closing line was found `e` lines after the line that follows the marker. -/
theorem onLine_named_ok (filePath contents : Str) (lines : List Str) (line : Str) (i : Nat)
    (slice : Slice) (h : onLine filePath contents lines [] line i = .ok [slice])
    (hnamed : slice.all = false) :
    ∃ m name re e, tagRegExpMatch line = some m ∧ m.name = some name ∧
      RegExp (endRegExpSource m.indentStr m.keyword name) = .regex re ∧
      findIndex (fun l => re.test l) (lines.drop (i + 1)) = some e ∧
      slice = closedSlice lines (initialSlice contents lines m.indentStr.length i)
        m.indentStr name i e := by
  rw [onLine_eq] at h
  unfold lineSlice at h
  cases hm : tagRegExpMatch line with
  | none => simp [hm] at h
  | some m =>
    rw [hm] at h
    simp only at h
    cases hn : m.name with
    | none =>
      rw [hn] at h
      simp only [List.nil_append] at h
      cases h
      simp [wholeFileSlice, initialSlice] at hnamed
    | some name =>
      rw [hn] at h
      simp only at h
      by_cases hw : name = [] ∨ name = utf16 "*"
      · rw [if_pos hw] at h
        simp only [List.nil_append] at h
        cases h
        simp [wholeFileSlice, initialSlice] at hnamed
      · rw [if_neg hw] at h
        cases hns : namedSlice filePath lines (initialSlice contents lines m.indentStr.length i)
            m.indentStr m.keyword name i with
        | error e => simp [hns] at h
        | ok named =>
          rw [hns] at h
          simp only [List.nil_append] at h
          cases h
          obtain ⟨re, e, hre, hf, hs⟩ := namedSlice_ok _ _ _ _ _ _ _ _ hns
          exact ⟨m, name, re, e, rfl, hn, hre, hf, hs⟩

/-- C13, amended: for every named slice, with `captured` the lines between the marker
and its closing line, `start ≤ end` unless no line is captured, in which case
`start = end + 1`; `start < end` holds exactly when two lines or more are captured. -/
theorem named_slice_start_end_order (filePath contents : Str) (lines : List Str) (line : Str)
    (i : Nat) (slice : Slice)
    (h : onLine filePath contents lines [] line i = .ok [slice]) (hnamed : slice.all = false) :
    (((lines.take slice.end_).drop (i + 1)) ≠ [] → slice.start ≤ slice.end_) ∧
    (((lines.take slice.end_).drop (i + 1)) = [] → slice.start = slice.end_ + 1) ∧
    (slice.start < slice.end_ ↔ 2 ≤ ((lines.take slice.end_).drop (i + 1)).length) := by
  obtain ⟨m, name, re, e, _, _, _, hf, rfl⟩ := onLine_named_ok _ _ _ _ _ _ h hnamed
  have hlen := length_captured lines i e (findIndex_lt _ _ _ hf)
  simp only [closedSlice, initialSlice]
  refine ⟨?_, ?_, ?_⟩
  · intro hne
    have : ((lines.take (i + 1 + e)).drop (i + 1)).length ≠ 0 := by
      intro hc
      exact hne (List.length_eq_zero.1 hc)
    omega
  · intro hnil
    have : ((lines.take (i + 1 + e)).drop (i + 1)).length = 0 := by rw [hnil]; rfl
    omega
  · rw [hlen]
    omega

/-- C18: for a named marker on line `i` whose closing line is line `E`, the slice has
`start = i + 2` and `end = E`, the one-based numbers of the first and of the last
captured line: `end + 1 = start +` the number of captured lines. -/
theorem named_slice_line_numbers (filePath contents : Str) (lines : List Str)
    (validLines : List Slice) (i E : Nat) (line closer : Str) (m : TagMatch) (N : Str)
    (hm : tagRegExpMatch line = some m)
    (hname : m.name = some N) (hne : N ≠ []) (hstar : N ≠ utf16 "*")
    (hiE : i < E) (hcloser : lines[E]? = some closer)
    (hclose : isClosingLine m.indentStr m.keyword N closer = true)
    (hleast : ∀ j l, i < j → j < E → lines[j]? = some l →
      isClosingLine m.indentStr m.keyword N l = false) :
    ∃ slice : Slice,
      onLine filePath contents lines validLines line i = .ok (validLines ++ [slice]) ∧
      slice.start = i + 2 ∧ slice.end_ = E ∧
      slice.end_ + 1 = slice.start + ((lines.take E).drop (i + 1)).length ∧
      (E = i + 1 → slice.start = slice.end_ + 1) ∧ (E = i + 2 → slice.start = slice.end_) := by
  obtain ⟨re, hre, hf⟩ := findIndex_closing lines m.indentStr m.keyword N closer i E hiE hcloser
    hclose hleast
  have hns := namedSlice_of_findIndex filePath lines
    (initialSlice contents lines m.indentStr.length i) m.indentStr m.keyword N i _ re hre hf
  have hls := lineSlice_named filePath contents lines line i m N hm hname hne hstar
  rw [hns] at hls
  have hE : i + 1 + (E - (i + 1)) = E := by omega
  have hlen := length_captured lines i (E - (i + 1)) (findIndex_lt _ _ _ hf)
  rw [hE] at hlen
  refine ⟨closedSlice lines (initialSlice contents lines m.indentStr.length i) m.indentStr N i
    (E - (i + 1)), ?_, rfl, ?_, ?_, ?_, ?_⟩
  · rw [onLine_eq, hls]
  · simp only [closedSlice, hE]
  · simp only [closedSlice, hE, hlen]
    omega
  · intro h1
    simp only [closedSlice, hE]
    omega
  · intro h2
    simp only [closedSlice, hE]
    omega

/-! ## Line endings -/

theorem replaceLineEndings_spec (s : Str) :
    13 ∉ replaceLineEndings s ∧ (replaceLineEndings s).count 10 = countLineBreaks s := by
  induction s using replaceLineEndings.induct with
  | case1 => simp [replaceLineEndings, countLineBreaks]
  | case2 cs ih => simpa [replaceLineEndings, countLineBreaks] using ih
  | case3 cs h ih =>
    have h1 : replaceLineEndings (13 :: cs) = 10 :: replaceLineEndings cs := by
      cases cs with
      | nil => rfl
      | cons c cs2 =>
        have hc : c ≠ 10 := fun hc => h cs2 (by rw [hc])
        simp [replaceLineEndings, hc]
    have h2 : countLineBreaks (13 :: cs) = countLineBreaks cs + 1 := by
      cases cs with
      | nil => rfl
      | cons c cs2 =>
        have hc : c ≠ 10 := fun hc => h cs2 (by rw [hc])
        simp [countLineBreaks, hc]
    rw [h1, h2]
    simpa using ih
  | case4 c cs _ hc ih =>
    have h1 : replaceLineEndings (c :: cs) = c :: replaceLineEndings cs := by
      simp [replaceLineEndings, hc]
    rw [h1]
    by_cases h10 : c = 10
    · subst h10
      simpa [countLineBreaks] using ih
    · have h2 : countLineBreaks (c :: cs) = countLineBreaks cs := by
        simp [countLineBreaks, hc, h10]
      rw [h2]
      refine ⟨?_, ?_⟩
      · simp only [List.mem_cons, not_or]
        exact ⟨fun hx => hc hx.symm, ih.1⟩
      · rw [List.count_cons_of_ne (fun hx => h10 hx.symm)]
        exact ih.2

theorem replaceLeadingSpaces_spec (s : Str) :
    (13 ∉ s → 13 ∉ replaceLeadingSpaces s) ∧
      (replaceLeadingSpaces s).count 10 = s.count 10 := by
  unfold replaceLeadingSpaces
  simp only
  have hsplit : s = s.takeWhile (· == 32) ++ s.drop (s.takeWhile (· == 32)).length := by
    conv_lhs => rw [← List.takeWhile_append_dropWhile (· == 32) s]
    congr 1
    induction s with
    | nil => rfl
    | cons c cs ih =>
      by_cases hc : c = 32
      · simp [List.takeWhile_cons, List.dropWhile_cons, hc]
        simpa using ih
      · simp [List.takeWhile_cons, List.dropWhile_cons, hc]
  have hall : ∀ c ∈ s.takeWhile (· == 32), c = 32 := by
    intro c hc
    simpa using List.mem_takeWhile_imp hc
  split
  · refine ⟨?_, ?_⟩
    · intro h13 hc
      rcases List.mem_append.1 hc with hc | hc
      · have := (List.mem_replicate.1 hc).2
        omega
      · exact h13 (List.mem_of_mem_drop hc)
    · conv_rhs => rw [hsplit]
      simp only [List.count_append]
      congr 1
      have h1 : List.count 10 (List.replicate (s.takeWhile (· == 32)).length 9) = 0 := by
        rw [List.count_eq_zero]
        intro hc
        have := (List.mem_replicate.1 hc).2
        omega
      have h2 : List.count 10 (s.takeWhile (· == 32)) = 0 := by
        rw [List.count_eq_zero]
        intro hc
        have := hall 10 hc
        omega
      rw [h1, h2]
  · exact ⟨fun h => h, rfl⟩

theorem length_splitAux (s cur : Str) : (splitAux s cur).length = s.count 10 + 1 := by
  induction s generalizing cur with
  | nil => simp [splitAux]
  | cons c cs ih =>
    unfold splitAux
    split
    · next h =>
      subst h
      simp [ih]
    · next h =>
      rw [ih, List.count_cons_of_ne (fun hx => h hx.symm)]

/-- C17: the output of `sanitizeFileContents` holds no carriage return, it holds one line
feed for each `\r\n` pair, each other `\r` and each other `\n` of the input, and
splitting it on line feeds gives one line more than the input has line endings. -/
theorem sanitize_line_endings (fileContents : Str) :
    13 ∉ sanitizeFileContents fileContents ∧
    (sanitizeFileContents fileContents).count 10 = countLineBreaks fileContents ∧
    (splitLines (sanitizeFileContents fileContents)).length =
      countLineBreaks fileContents + 1 := by
  have h1 := replaceLineEndings_spec fileContents
  have h2 := replaceLeadingSpaces_spec (replaceLineEndings fileContents)
  have hcount : (sanitizeFileContents fileContents).count 10 = countLineBreaks fileContents := by
    unfold sanitizeFileContents
    rw [h2.2, h1.2]
  refine ⟨h2.1 h1.1, hcount, ?_⟩
  unfold splitLines
  rw [length_splitAux, hcount]

/-! ## One name per marker -/

theorem filterMap_markerName_markers (lines : List Str) :
    (lines.filterMap markerName).map some =
      (lines.filter fun l => (tagRegExpMatch l).isSome).map markerName := by
  induction lines with
  | nil => rfl
  | cons line rest ih =>
    have h := markerName_isSome line
    cases hm : markerName line with
    | none =>
      rw [hm] at h
      have hf : (tagRegExpMatch line).isSome = false := by simpa using h.symm
      simp [List.filterMap_cons, hm, List.filter_cons, hf, ih]
    | some n =>
      rw [hm] at h
      have hf : (tagRegExpMatch line).isSome = true := by simpa using h.symm
      simp [List.filterMap_cons, hm, List.filter_cons, hf, ih]

/-- C19: for every file on which extraction succeeds, `slices_names` has as many entries
as the file has marker lines, and its `k`-th entry is the name of the `k`-th marker line
(`*` for an absent or empty name), whether or not other markers carry the same name. -/
theorem slices_names_entry_per_marker (path : PathLib) (filePath fileContents : Str)
    (slices : List Slice) (h : extractFile filePath fileContents = .ok slices) :
    (fileConfig path filePath slices).slices_names.length =
      ((fileLines fileContents).filter fun l => (tagRegExpMatch l).isSome).length ∧
    ∀ (k : Nat) (l : Str),
      ((fileLines fileContents).filter fun l => (tagRegExpMatch l).isSome)[k]? = some l →
      (fileConfig path filePath slices).slices_names[k]? = markerName l := by
  have hn : (fileConfig path filePath slices).slices_names =
      (fileLines fileContents).filterMap markerName := by
    rw [fileConfig_slices_names, extractFile_names filePath fileContents slices h]
  have hmap := filterMap_markerName_markers (fileLines fileContents)
  rw [← hn] at hmap
  refine ⟨?_, ?_⟩
  · have := congrArg List.length hmap
    simpa using this
  · intro k l hk
    have := congrArg (fun xs => xs[k]?) hmap
    simp only [List.getElem?_map, hk, Option.map_some'] at this
    cases hx : (fileConfig path filePath slices).slices_names[k]? with
    | none => simp [hx] at this
    | some n =>
      rw [hx] at this
      simpa using this

theorem slices_names_entry_per_marker_witness :
    ∃ slices : List Slice,
      extractFile (utf16 "a.gd") twiceText = .ok slices ∧
      (fileConfig examplePath (utf16 "a.gd") slices).slices_names.length = 2 ∧
      (fileConfig examplePath (utf16 "a.gd") slices).slices_names[1]? = some (utf16 "a") := by
  obtain ⟨slices, h⟩ := isOk_exists (extractFile (utf16 "a.gd") twiceText) (by decide)
  obtain ⟨h1, h2⟩ := slices_names_entry_per_marker examplePath (utf16 "a.gd") twiceText slices h
  refine ⟨slices, h, ?_, ?_⟩
  · rw [h1]
    decide
  · rw [h2 1 (utf16 "# EXPORT a") (by decide)]
    decide

/-- C13: in `oneLineText` one line is captured and the slice has `start = end`. -/
theorem one_line_slice_start_equals_end :
    ∃ slice : Slice,
      extractFile (utf16 "a.gd") oneLineText = .ok [slice] ∧
      ((fileLines oneLineText).take slice.end_).drop 1 = [utf16 "x"] ∧
      ¬ slice.start < slice.end_ :=
  ⟨{ all := false, name := utf16 "a", before := utf16 "# EXPORT a\nx", after := [],
     contents := utf16 "x", indent := 0, start := 2, end_ := 2, original := some (utf16 "x") },
   by decide, by decide, by decide⟩

theorem named_slice_start_end_order_witness :
    ∃ slice : Slice,
      onLine (utf16 "demo.gd") demoText demoLines [] (utf16 "# EXPORT demo") 0 = .ok [slice] ∧
      slice.start < slice.end_ := by
  have hs : onLine (utf16 "demo.gd") demoText demoLines [] (utf16 "# EXPORT demo") 0 =
      .ok [{ all := false, name := utf16 "demo", before := utf16 "# EXPORT demo\nline one",
             after := [], contents := utf16 "line one\nline two", indent := 0, start := 2,
             end_ := 3, original := some (utf16 "line one\nline two") }] := by decide
  obtain ⟨_, _, h3⟩ := named_slice_start_end_order (utf16 "demo.gd") demoText demoLines
    (utf16 "# EXPORT demo") 0 _ hs rfl
  exact ⟨_, hs, h3.2 (by decide)⟩

theorem named_slice_line_numbers_witness :
    ∃ slice : Slice,
      onLine (utf16 "demo.gd") demoText demoLines [] (utf16 "# EXPORT demo") 0 = .ok [slice] ∧
      slice.start = 2 ∧ slice.end_ = 3 := by
  obtain ⟨slice, h1, h2, h3, _⟩ :=
    named_slice_line_numbers (utf16 "demo.gd") demoText demoLines [] 0 3 (utf16 "# EXPORT demo")
      (utf16 "# /EXPORT demo") ⟨[], exportKeyword, some (utf16 "demo")⟩ (utf16 "demo")
      (by decide) rfl (by decide) (by decide) (by decide) (by decide) (by decide)
      (by
        intro j l h1 h2 hl
        interval_cases j
        · have : l = utf16 "line one" := by simpa [demoLines] using hl.symm
          subst this
          decide
        · have : l = utf16 "line two" := by simpa [demoLines] using hl.symm
          subst this
          decide)
  exact ⟨slice, h1, h2, h3⟩

/-- C20: the manifest of the file `protoText` lists `__proto__` in the `slices_names` of
the record of the file, and the `slices` of that record have no key. -/
theorem manifest_lists_a_name_without_key :
    (getProjectSlices examplePath [(utf16 "a.gd", protoText)]).map
        (fun manifest =>
          (manifest.files_paths,
            (manifest.files.get? (utf16 "a.gd")).map fun record =>
              (record.slices_names, record.slices.keys,
                record.slices.get? (utf16 "__proto__")))) =
      .ok ([utf16 "a.gd"], some ([utf16 "__proto__"], [], none)) := by
  rfl

/-! ## Parsing a close pattern made of pattern characters -/

theorem quantified_of_noQuantifier (atom : Re) (input : Str) (h : NoQuantifier input) :
    quantified atom input = .ok atom input := by
  have hq : quantifierPrefix input = none := by
    unfold quantifierPrefix
    split
    · exact absurd rfl (h 42 rfl).1
    · exact absurd rfl (h 43 rfl).2.1
    · exact absurd rfl (h 63 rfl).2.2.1
    · exact absurd rfl (h 123 rfl).2.2.2
    · rfl
  simp [quantified, hq]

theorem parseTerm_patternCharacter (fuel c : Nat) (rest : Str)
    (hc : isPatternCharacter c = true) (hq : NoQuantifier rest) :
    parseTerm (fuel + 1) (c :: rest) = .ok (.chars false [ClassItem.single c]) rest := by
  simp only [isPatternCharacter, Bool.not_eq_true', Bool.or_eq_false_iff, beq_eq_false_iff_ne,
    ne_eq] at hc
  obtain ⟨⟨⟨⟨⟨⟨⟨⟨⟨⟨⟨h94, h36⟩, h92⟩, h46⟩, h42⟩, h43⟩, h63⟩, h40⟩, h41⟩, h91⟩, h123⟩, h124⟩ := hc
  rw [parseTerm]
  · exact quantified_of_noQuantifier _ _ hq
  all_goals
    intros
    simp_all

theorem noQuantifier_of_patternCharacter (c : Nat) (rest : Str)
    (hc : isPatternCharacter c = true) : NoQuantifier (c :: rest) := by
  intro d hd
  simp only [List.head?_cons, Option.some.injEq] at hd
  subst hd
  simp only [isPatternCharacter, Bool.not_eq_true', Bool.or_eq_false_iff, beq_eq_false_iff_ne,
    ne_eq] at hc
  obtain ⟨⟨⟨⟨⟨⟨⟨⟨⟨⟨⟨_, _⟩, _⟩, _⟩, h42⟩, h43⟩, h63⟩, _⟩, _⟩, _⟩, h123⟩, _⟩ := hc
  exact ⟨h42, h43, h63, h123⟩

theorem parsesTo_patternCharacter (c : Nat) (rest : Str) (a : Re) (r : Str)
    (hc : isPatternCharacter c = true) (hq : NoQuantifier rest) (h : ParsesTo rest a r) :
    ParsesTo (c :: rest) (.seq (.chars false [ClassItem.single c]) a) r := by
  intro fuel hfuel
  simp only [List.length_cons] at hfuel
  obtain ⟨g, rfl⟩ : ∃ g, fuel = g + 1 + 1 := ⟨fuel - 2, by omega⟩
  have hrest := h (g + 1) (by omega)
  have hterm := parseTerm_patternCharacter g c rest hc hq
  simp only [isPatternCharacter, Bool.not_eq_true', Bool.or_eq_false_iff, beq_eq_false_iff_ne,
    ne_eq] at hc
  obtain ⟨⟨⟨⟨⟨⟨⟨⟨⟨⟨⟨_, _⟩, _⟩, _⟩, _⟩, _⟩, _⟩, _⟩, h41⟩, _⟩, _⟩, h124⟩ := hc
  rw [parseAlternative]
  · simp only [hterm, hrest]
  all_goals
    intros
    simp_all

theorem parsesTo_litChain (cs : Str) (t : Str) (a : Re) (r : Str)
    (hcs : ∀ c ∈ cs, isPatternCharacter c = true) (hq : NoQuantifier t) (h : ParsesTo t a r) :
    ParsesTo (cs ++ t) (litChain cs a) r := by
  induction cs with
  | nil => exact h
  | cons c cs ih =>
    have hrest : ∀ d ∈ cs, isPatternCharacter d = true := fun d hd => hcs d (by simp [hd])
    have hq2 : NoQuantifier (cs ++ t) := by
      cases cs with
      | nil => exact hq
      | cons d ds => exact noQuantifier_of_patternCharacter d _ (hrest d (by simp))
    exact parsesTo_patternCharacter c (cs ++ t) (litChain cs a) r (hcs c (by simp)) hq2 (ih hrest)

theorem parsesTo_slash (rest : Str) (a : Re) (r : Str) (hq : NoQuantifier rest)
    (h : ParsesTo rest a r) :
    ParsesTo (92 :: 47 :: rest) (.seq (.chars false [ClassItem.single 47]) a) r := by
  intro fuel hfuel
  simp only [List.length_cons] at hfuel
  obtain ⟨g, rfl⟩ : ∃ g, fuel = g + 1 + 1 := ⟨fuel - 2, by omega⟩
  have hrest := h (g + 1) (by omega)
  have hterm : parseTerm (g + 1) (92 :: 47 :: rest) =
      .ok (.chars false [ClassItem.single 47]) rest := by
    simp [parseTerm, escape, Escape.item, isDigit, quantified_of_noQuantifier _ _ hq]
  rw [parseAlternative]
  · simp only [hterm, hrest]
  all_goals
    intros
    simp_all

theorem parsesTo_bol (rest : Str) (a : Re) (r : Str) (h : ParsesTo rest a r) :
    ParsesTo (94 :: rest) (.seq .bol a) r := by
  intro fuel hfuel
  simp only [List.length_cons] at hfuel
  obtain ⟨g, rfl⟩ : ∃ g, fuel = g + 1 + 1 := ⟨fuel - 2, by omega⟩
  have hrest := h (g + 1) (by omega)
  have hterm : parseTerm (g + 1) (94 :: rest) = .ok .bol rest := by
    simp [parseTerm]
  rw [parseAlternative]
  · simp only [hterm, hrest]
  all_goals
    intros
    simp_all

theorem parsesTo_closeTail : ParsesTo [92, 115, 42, 36] closeTail [] := by
  intro fuel hfuel
  obtain ⟨g, rfl⟩ : ∃ g, fuel = g + 5 := ⟨fuel - 5, by simp at hfuel; omega⟩
  rfl

theorem endRegExpSource_eq (P N : Str) :
    endRegExpSource P exportKeyword N =
      94 :: ((P ++ [35, 32]) ++ (92 :: 47 :: ((exportKeyword ++ [32] ++ N) ++ [92, 115, 42, 36]))) := by
  have h1 : utf16 "^" = [94] := by decide
  have h2 : utf16 "# \\/" = [35, 32, 92, 47] := by decide
  have h3 : utf16 " " = [32] := by decide
  have h4 : utf16 "\\s*$" = [92, 115, 42, 36] := by decide
  simp [endRegExpSource, h1, h2, h3, h4]

theorem regExp_of_parsesTo (source : Str) (a : Re) (h : ParsesTo source a []) :
    RegExp source = .regex a := by
  unfold RegExp
  have hfuel : 3 * source.length + 3 = (3 * source.length + 2) + 1 := by omega
  rw [hfuel, parseDisjunction, h (3 * source.length + 2) (by omega)]

/-- The close pattern of an indentation and a name made of pattern characters is valid
and is parsed as the sequence of its characters. -/
theorem regExp_endRegExpSource (P N : Str) (hP : ∀ c ∈ P, isPatternCharacter c = true)
    (hN : ∀ c ∈ N, isPatternCharacter c = true) :
    RegExp (endRegExpSource P exportKeyword N) = .regex (closePattern P N) := by
  apply regExp_of_parsesTo
  rw [endRegExpSource_eq]
  apply parsesTo_bol
  apply parsesTo_litChain
  · intro c hc
    rcases List.mem_append.1 hc with hc | hc
    · exact hP c hc
    · have : c = 35 ∨ c = 32 := by simpa using hc
      rcases this with rfl | rfl <;> decide
  · intro c hc
    simp only [List.head?_cons, Option.some.injEq] at hc
    subst hc
    decide
  apply parsesTo_slash
  · intro c hc
    have : c = 69 := by
      have he : exportKeyword = [69, 88, 80, 79, 82, 84] := by decide
      rw [he] at hc
      simpa using hc.symm
    subst this
    decide
  apply parsesTo_litChain
  · intro c hc
    rcases List.mem_append.1 hc with hc | hc
    · have he : exportKeyword ++ [32] = [69, 88, 80, 79, 82, 84, 32] := by decide
      rw [he] at hc
      have : c = 69 ∨ c = 88 ∨ c = 80 ∨ c = 79 ∨ c = 82 ∨ c = 84 ∨ c = 32 := by simpa using hc
      rcases this with rfl | rfl | rfl | rfl | rfl | rfl | rfl <;> decide
    · exact hN c hc
  · intro c hc
    simp only [List.head?_cons, Option.some.injEq] at hc
    subst hc
    decide
  exact parsesTo_closeTail

/-! ## Matching a close pattern made of pattern characters -/

theorem mem_seq_ends (input : Str) (a b : Re) (x y : Nat) :
    y ∈ (Re.seq a b).ends input x ↔ ∃ z, z ∈ a.ends input x ∧ y ∈ b.ends input z := by
  simp [Re.ends, List.mem_flatMap]

theorem chars_ends_eq (input : Str) (neg : Bool) (items : List ClassItem) (x : Nat) :
    (Re.chars neg items).ends input x =
      charStep input (fun c => neg != items.any (fun it => it.has c)) x := by
  simp only [Re.ends, charStep, List.get?_eq_getElem?]

theorem single_has (c d : Nat) : (ClassItem.single c).has d = decide (d = c) := by
  by_cases h : d = c
  · subst h
    simp [ClassItem.single, ClassItem.has]
  · simp only [ClassItem.single, ClassItem.has, List.any_cons, List.any_nil, Bool.or_false,
      Bool.false_bne, h, decide_False, Bool.and_eq_false_iff, decide_eq_false_iff_not]
    omega

theorem mem_single_ends (input : Str) (c x y : Nat) :
    y ∈ (Re.chars false [ClassItem.single c]).ends input x ↔ input[x]? = some c ∧ y = x + 1 := by
  rw [chars_ends_eq]
  unfold charStep
  cases hx : input[x]? with
  | none => simp
  | some d =>
    by_cases hd : d = c
    · simp [single_has, hd]
    · simp [single_has, hd]

theorem space_has (c : Nat) : (ClassItem.mk false spaceRanges).has c = isWhiteSpace c := by
  simp only [ClassItem.has, spaceRanges, isWhiteSpace, List.any_cons, List.any_nil,
    Bool.or_false, Bool.false_bne]
  rw [Bool.eq_iff_iff]
  simp only [Bool.or_eq_true, Bool.and_eq_true, decide_eq_true_eq, beq_iff_eq]
  omega

theorem litChain_append (cs ds : Str) (a : Re) :
    litChain (cs ++ ds) a = litChain cs (litChain ds a) := by
  simp [litChain, List.foldr_append]

theorem drop_eq_cons_iff (input : Str) (x c : Nat) (rest : Str) :
    input.drop x = c :: rest ↔ input[x]? = some c ∧ input.drop (x + 1) = rest := by
  constructor
  · intro h
    have h0 : (input.drop x)[0]? = some c := by rw [h]; simp
    have h1 : input.drop (x + 1) = rest := by
      have := congrArg (List.drop 1) h
      simpa [List.drop_drop, Nat.add_comm] using this
    refine ⟨?_, h1⟩
    simpa [List.getElem?_drop] using h0
  · rintro ⟨h1, h2⟩
    have hlt : x < input.length := by
      by_contra hc
      rw [List.getElem?_eq_none (by omega)] at h1
      cases h1
    rw [List.drop_eq_getElem_cons hlt, h2]
    have : input[x]? = some input[x] := List.getElem?_eq_getElem hlt
    rw [this] at h1
    cases h1
    rfl

theorem mem_litChain_ends (input : Str) (a : Re) (cs : Str) :
    ∀ (x y : Nat), y ∈ (litChain cs a).ends input x ↔
      (∃ rest, input.drop x = cs ++ rest) ∧ y ∈ a.ends input (x + cs.length) := by
  induction cs with
  | nil => intro x y; simp [litChain]
  | cons c cs ih =>
    intro x y
    have hunfold : litChain (c :: cs) a =
        .seq (.chars false [ClassItem.single c]) (litChain cs a) := rfl
    rw [hunfold, mem_seq_ends]
    constructor
    · rintro ⟨z, hz, hy⟩
      obtain ⟨hc, rfl⟩ := (mem_single_ends input c x z).1 hz
      obtain ⟨⟨rest, hrest⟩, hy2⟩ := (ih (x + 1) y).1 hy
      refine ⟨⟨rest, ?_⟩, ?_⟩
      · exact (drop_eq_cons_iff input x c (cs ++ rest)).2 ⟨hc, hrest⟩
      · simpa [Nat.add_assoc, Nat.add_comm 1] using hy2
    · rintro ⟨⟨rest, hrest⟩, hy⟩
      obtain ⟨hc, hd⟩ := (drop_eq_cons_iff input x c (cs ++ rest)).1 (by simpa using hrest)
      refine ⟨x + 1, (mem_single_ends input c x (x + 1)).2 ⟨hc, rfl⟩, (ih (x + 1) y).2 ⟨⟨rest, hd⟩, ?_⟩⟩
      simpa [Nat.add_assoc, Nat.add_comm 1] using hy

theorem charStep_append_cons (pre suf : Str) (c : Nat) (p : Nat → Bool) :
    charStep (pre ++ c :: suf) p pre.length = if p c then [pre.length + 1] else [] := by
  have h : (pre ++ c :: suf)[pre.length]? = some c := by
    rw [List.getElem?_append_right (Nat.le_refl _)]
    simp
  simp only [charStep, h]

theorem charStep_append_nil (pre : Str) (p : Nat → Bool) :
    charStep (pre ++ []) p pre.length = [] := by
  have h : (pre ++ ([] : Str))[pre.length]? = none := by
    rw [List.getElem?_append_right (Nat.le_refl _)]
    simp
  simp only [charStep, h]

theorem repeatEnds_star_succ (step : Nat → List Nat) (f x : Nat) :
    repeatEnds step (f + 1) 0 none x =
      ((step x).filter fun y => !(y == x)).flatMap (repeatEnds step f 0 none) ++ [x] := by
  simp [repeatEnds]

/-- The end positions of `X*` for a pattern `X` that matches one code unit satisfying
`p`: from the end of `pre` in `pre ++ suf`, every position reached through code units
that all satisfy `p`. -/
theorem mem_repeatEnds_star (p : Nat → Bool) :
    ∀ (suf pre : Str) (fuel y : Nat), suf.length + 1 ≤ fuel →
      (y ∈ repeatEnds (charStep (pre ++ suf) p) fuel 0 none pre.length ↔
        ∃ k, k ≤ suf.length ∧ y = pre.length + k ∧ ∀ c ∈ suf.take k, p c = true) := by
  intro suf
  induction suf with
  | nil =>
    intro pre fuel y hfuel
    obtain ⟨f, rfl⟩ : ∃ f, fuel = f + 1 := ⟨fuel - 1, by omega⟩
    rw [repeatEnds_star_succ, charStep_append_nil]
    simp
  | cons c s ih =>
    intro pre fuel y hfuel
    simp only [List.length_cons] at hfuel
    obtain ⟨f, rfl⟩ : ∃ f, fuel = f + 1 := ⟨fuel - 1, by omega⟩
    have hih := ih (pre ++ [c]) f y (by omega)
    simp only [List.append_assoc, List.singleton_append, List.length_append, List.length_singleton]
      at hih
    rw [repeatEnds_star_succ, charStep_append_cons]
    cases hp : p c with
    | false =>
      simp only [Bool.false_eq_true, if_false, List.filter_nil, List.flatMap_nil,
        List.nil_append, List.mem_singleton]
      constructor
      · intro hy
        exact ⟨0, Nat.zero_le _, by omega, by simp⟩
      · rintro ⟨k, _, hk, hall⟩
        cases k with
        | zero => omega
        | succ k =>
          have := hall c (by simp)
          rw [hp] at this
          cases this
    | true =>
      have hfilter : ([pre.length + 1].filter fun y => !(y == pre.length)) = [pre.length + 1] := by
        simp
      simp only [if_true, hfilter, List.flatMap_cons, List.flatMap_nil, List.append_nil,
        List.mem_append, List.mem_singleton, hih]
      constructor
      · rintro (⟨k, hk, rfl, hall⟩ | rfl)
        · refine ⟨k + 1, by simp only [List.length_cons]; omega, by omega, ?_⟩
          intro d hd
          simp only [List.take_succ_cons, List.mem_cons] at hd
          rcases hd with rfl | hd
          · exact hp
          · exact hall d hd
        · exact ⟨0, Nat.zero_le _, by omega, by simp⟩
      · rintro ⟨k, hk, rfl, hall⟩
        cases k with
        | zero => right; omega
        | succ k =>
          left
          simp only [List.length_cons] at hk
          refine ⟨k, by omega, by omega, ?_⟩
          intro d hd
          exact hall d (by simp [List.take_succ_cons, hd])

theorem rep_ends (input : Str) (min : Nat) (max : Option Nat) (a : Re) :
    (Re.rep min max a).ends input =
      repeatEnds (a.ends input) (min + input.length + 1) min max := by
  funext x
  simp only [Re.ends]

theorem mem_eol_empty_ends (input : Str) (x y : Nat) :
    y ∈ (Re.seq .eol .empty).ends input x ↔ x = input.length ∧ y = x := by
  rw [mem_seq_ends]
  simp only [Re.ends]
  constructor
  · rintro ⟨z, hz, hy⟩
    by_cases hx : x = input.length
    · rw [if_pos hx] at hz
      simp only [List.mem_singleton] at hz hy
      exact ⟨hx, by rw [hy, hz]⟩
    · rw [if_neg hx] at hz
      cases hz
  · rintro ⟨hx, rfl⟩
    exact ⟨y, by simp [hx], by simp⟩

/-- The end `\s*$` of a close pattern matches from the end of `pre` in `pre ++ suf`
exactly when `suf` is whitespace. -/
theorem closeTail_ends (pre suf : Str) :
    (∃ y, y ∈ closeTail.ends (pre ++ suf) pre.length) ↔ ∀ c ∈ suf, isWhiteSpace c = true := by
  have hstep : (Re.chars false [ClassItem.mk false spaceRanges]).ends (pre ++ suf) =
      charStep (pre ++ suf) isWhiteSpace := by
    funext x
    rw [chars_ends_eq]
    congr 1
    funext c
    simp [space_has]
  have hmem : ∀ y, y ∈ closeTail.ends (pre ++ suf) pre.length ↔
      ∃ z, z ∈ repeatEnds (charStep (pre ++ suf) isWhiteSpace) (0 + (pre ++ suf).length + 1) 0 none
        pre.length ∧ y ∈ (Re.seq .eol .empty).ends (pre ++ suf) z := by
    intro y
    unfold closeTail
    rw [mem_seq_ends, rep_ends, hstep]
  constructor
  · rintro ⟨y, hy⟩
    obtain ⟨z, hz, hy2⟩ := (hmem y).1 hy
    obtain ⟨k, hk, hzk, hall⟩ := (mem_repeatEnds_star isWhiteSpace suf pre _ z
      (by simp only [List.length_append]; omega)).1 hz
    obtain ⟨hzlen, _⟩ := (mem_eol_empty_ends _ _ _).1 hy2
    simp only [List.length_append] at hzlen
    have hks : k = suf.length := by omega
    rw [hks, List.take_length] at hall
    exact hall
  · intro hall
    refine ⟨(pre ++ suf).length, (hmem _).2 ⟨(pre ++ suf).length, ?_, ?_⟩⟩
    · apply (mem_repeatEnds_star isWhiteSpace suf pre _ _
        (by simp only [List.length_append]; omega)).2
      exact ⟨suf.length, Nat.le_refl _, by simp, by simpa using hall⟩
    · exact (mem_eol_empty_ends _ _ _).2 ⟨rfl, rfl⟩

theorem test_bol (input : Str) (r : Re) :
    (Re.seq .bol r).test input = true ↔ ∃ y, y ∈ r.ends input 0 := by
  unfold Re.test
  rw [List.any_eq_true]
  constructor
  · rintro ⟨x, _, hx⟩
    have hne : (Re.seq .bol r).ends input x ≠ [] := by
      intro hc
      rw [hc] at hx
      simp at hx
    obtain ⟨y, hy⟩ := List.exists_mem_of_ne_nil _ hne
    obtain ⟨z, hz, hy2⟩ := (mem_seq_ends _ _ _ _ _).1 hy
    simp only [Re.ends] at hz
    by_cases h0 : x = 0
    · rw [if_pos h0] at hz
      simp only [List.mem_singleton] at hz
      rw [hz, h0] at hy2
      exact ⟨y, hy2⟩
    · rw [if_neg h0] at hz
      cases hz
  · rintro ⟨y, hy⟩
    refine ⟨0, by simp, ?_⟩
    have : y ∈ (Re.seq .bol r).ends input 0 :=
      (mem_seq_ends _ _ _ _ _).2 ⟨0, by simp [Re.ends], hy⟩
    cases hl : (Re.seq .bol r).ends input 0 with
    | nil => rw [hl] at this; cases this
    | cons a as => simp

theorem closePattern_eq (P N : Str) :
    closePattern P N = .seq .bol (litChain (P ++ utf16 "# /EXPORT " ++ N) closeTail) := by
  have h1 : utf16 "# /EXPORT " = [35, 32] ++ [47] ++ (exportKeyword ++ [32]) := by decide
  have h2 : ∀ a, Re.seq (.chars false [ClassItem.single 47]) a = litChain [47] a := fun _ => rfl
  rw [closePattern, h1, h2]
  simp only [← litChain_append, List.append_assoc]

/-- For an indentation and a name made of pattern characters, a line matches the close
pattern exactly when it is the indentation, `# /EXPORT `, the name and then whitespace
only. -/
theorem isClosingLine_iff (P N input : Str) (hP : ∀ c ∈ P, isPatternCharacter c = true)
    (hN : ∀ c ∈ N, isPatternCharacter c = true) :
    isClosingLine P exportKeyword N input = true ↔
      ∃ ws, input = P ++ utf16 "# /EXPORT " ++ N ++ ws ∧ ∀ c ∈ ws, isWhiteSpace c = true := by
  rw [isClosingLine_of_regex _ _ _ _ _ (regExp_endRegExpSource P N hP hN), closePattern_eq,
    test_bol]
  constructor
  · rintro ⟨y, hy⟩
    obtain ⟨⟨ws, hws⟩, hy2⟩ := (mem_litChain_ends _ _ _ _ _).1 hy
    simp only [List.drop_zero, Nat.zero_add] at hws hy2
    refine ⟨ws, hws, ?_⟩
    rw [hws] at hy2
    exact (closeTail_ends _ ws).1 ⟨y, hy2⟩
  · rintro ⟨ws, rfl, hall⟩
    obtain ⟨y, hy⟩ := (closeTail_ends (P ++ utf16 "# /EXPORT " ++ N) ws).2 hall
    refine ⟨y, (mem_litChain_ends _ _ _ _ _).2 ⟨⟨ws, by simp⟩, ?_⟩⟩
    simpa using hy

/-! ## A closing line at another depth -/

theorem isPatternCharacter_of_isWhiteSpace (c : Nat) (h : isWhiteSpace c = true) :
    isPatternCharacter c = true := by
  simp only [isWhiteSpace, Bool.or_eq_true, beq_iff_eq, Bool.and_eq_true, decide_eq_true_eq] at h
  simp only [isPatternCharacter, Bool.not_eq_true', Bool.or_eq_false_iff, beq_eq_false_iff_ne,
    ne_eq]
  omega

theorem isPatternCharacter_of_isAlphanumeric (c : Nat) (h : isAlphanumeric c = true) :
    isPatternCharacter c = true := by
  simp only [isAlphanumeric, Bool.or_eq_true, Bool.and_eq_true, decide_eq_true_eq] at h
  simp only [isPatternCharacter, Bool.not_eq_true', Bool.or_eq_false_iff, beq_eq_false_iff_ne,
    ne_eq]
  omega

theorem takeWhile_isWhiteSpace_append_hash (P rest : Str)
    (hP : ∀ c ∈ P, isWhiteSpace c = true) :
    (P ++ 35 :: rest).takeWhile isWhiteSpace = P := by
  induction P with
  | nil =>
    have : isWhiteSpace 35 = false := by decide
    simp [List.takeWhile_cons, this]
  | cons c cs ih =>
    have hc := hP c (by simp)
    simp only [List.cons_append, List.takeWhile_cons, hc, if_true]
    rw [ih (fun d hd => hP d (by simp [hd]))]

/-- C15: for an opening marker with the whitespace prefix `P` and an alphanumeric name
`N`, a line `P2 + "# /EXPORT " + N` (whatever follows the name) whose whitespace
prefix `P2` differs from `P` does not match the close pattern; and when no
later line is `P`, `# /EXPORT `, `N` and then whitespace only, the marker ends the run
with the error of a missing closing tag. -/
theorem closer_at_other_depth_is_skipped (P P2 N trailing : Str)
    (hP : ∀ c ∈ P, isWhiteSpace c = true) (hP2 : ∀ c ∈ P2, isWhiteSpace c = true)
    (hN : ∀ c ∈ N, isAlphanumeric c = true) (hdiff : P2 ≠ P) :
    isClosingLine P exportKeyword N (P2 ++ utf16 "# /EXPORT " ++ N ++ trailing) = false ∧
    ∀ (filePath : Str) (lines : List Str) (slice : Slice) (lineNb : Nat),
      (∀ l ∈ lines.drop (lineNb + 1),
        ¬ ∃ ws, l = P ++ utf16 "# /EXPORT " ++ N ++ ws ∧ ∀ c ∈ ws, isWhiteSpace c = true) →
      namedSlice filePath lines slice P exportKeyword N lineNb =
        .error (.missingClosingTag (closingTagMessage filePath N)) := by
  have hPc : ∀ c ∈ P, isPatternCharacter c = true :=
    fun c hc => isPatternCharacter_of_isWhiteSpace c (hP c hc)
  have hNc : ∀ c ∈ N, isPatternCharacter c = true :=
    fun c hc => isPatternCharacter_of_isAlphanumeric c (hN c hc)
  have hhash : utf16 "# /EXPORT " = 35 :: utf16 " /EXPORT " := by decide
  constructor
  · cases hcl : isClosingLine P exportKeyword N (P2 ++ utf16 "# /EXPORT " ++ N ++ trailing) with
    | false => rfl
    | true =>
      obtain ⟨ws, hws, _⟩ := (isClosingLine_iff P N _ hPc hNc).1 hcl
      have h := congrArg (List.takeWhile isWhiteSpace) hws
      simp only [hhash, List.append_assoc, List.cons_append] at h
      rw [takeWhile_isWhiteSpace_append_hash P2 _ hP2, takeWhile_isWhiteSpace_append_hash P _ hP]
        at h
      exact absurd h hdiff
  · intro filePath lines slice lineNb hnone
    have hall : ∀ l ∈ lines.drop (lineNb + 1), isClosingLine P exportKeyword N l = false := by
      intro l hl
      cases hcl : isClosingLine P exportKeyword N l with
      | false => rfl
      | true => exact absurd ((isClosingLine_iff P N l hPc hNc).1 hcl) (hnone l hl)
    obtain ⟨e, he⟩ := (namedSlice_error_iff filePath lines slice P exportKeyword N lineNb).2 hall
    rw [he, (namedSlice_error_message filePath lines slice P exportKeyword N lineNb _ e
      (regExp_endRegExpSource P N hPc hNc) he).1]

theorem closer_at_other_depth_is_skipped_witness :
    isClosingLine (utf16 "\t") exportKeyword (utf16 "a") (utf16 "# /EXPORT a") = false ∧
    namedSlice (utf16 "a.gd") [utf16 "\t# EXPORT a", utf16 "# /EXPORT a"]
        (initialSlice [] [utf16 "\t# EXPORT a", utf16 "# /EXPORT a"] 1 0)
        (utf16 "\t") exportKeyword (utf16 "a") 0 =
      .error (.missingClosingTag (closingTagMessage (utf16 "a.gd") (utf16 "a"))) := by
  have h := closer_at_other_depth_is_skipped (utf16 "\t") [] (utf16 "a") []
    (by decide) (by decide) (by decide) (by decide)
  refine ⟨by simpa using h.1, h.2 _ _ _ 0 ?_⟩
  intro l hl
  have hl2 : l = utf16 "# /EXPORT a" := by simpa using hl
  subst hl2
  rintro ⟨ws, hws, _⟩
  have h1 : (utf16 "# /EXPORT a").head? = some 35 := by decide
  have h2 : (utf16 "\t" ++ utf16 "# /EXPORT " ++ utf16 "a" ++ ws).head? = some 9 := rfl
  have h3 := congrArg List.head? hws
  rw [h1, h2] at h3
  exact absurd h3 (by decide)

/-! ## The grammar of a marker line -/

theorem regExp_tagRegExpSource : RegExp tagRegExpSource = .regex tagRe := by
  decide

theorem dropWhile_isWhiteSpace_append_hash (P rest : Str)
    (hP : ∀ c ∈ P, isWhiteSpace c = true) :
    (P ++ 35 :: rest).dropWhile isWhiteSpace = 35 :: rest := by
  induction P with
  | nil =>
    have : isWhiteSpace 35 = false := by decide
    simp [List.dropWhile_cons, this]
  | cons c cs ih =>
    have hc := hP c (by simp)
    simp only [List.cons_append, List.dropWhile_cons, hc, if_true]
    exact ih (fun d hd => hP d (by simp [hd]))

theorem exportKeyword_eq : exportKeyword = [69, 88, 80, 79, 82, 84] := by
  decide

/-- The match of `tagRegExp` in terms of the leading whitespace of the line and what
follows it. -/
theorem tagRegExpMatch_eq_some_iff (input : Str) (m : TagMatch) :
    tagRegExpMatch input = some m ↔
      ∃ w rest name, input.dropWhile isWhiteSpace = 35 :: w :: (exportKeyword ++ rest) ∧
        isWhiteSpace w = true ∧ tagName rest = some name ∧
        m = ⟨input.takeWhile isWhiteSpace, exportKeyword, name⟩ := by
  constructor
  · intro h
    unfold tagRegExpMatch at h
    simp only at h
    split at h
    · next w rest heq =>
      split at h
      · next hw =>
        cases hn : tagName rest with
        | none => simp [hn] at h
        | some name =>
          simp only [hn, Option.map_some', Option.some.injEq] at h
          exact ⟨w, rest, name, by rw [heq, exportKeyword_eq]; rfl, hw, hn, h.symm⟩
      · cases h
    · cases h
  · rintro ⟨w, rest, name, hdrop, hw, hn, rfl⟩
    rw [exportKeyword_eq] at hdrop
    simp only [List.cons_append, List.nil_append] at hdrop
    unfold tagRegExpMatch
    simp only [hdrop, hw, if_true, hn, Option.map_some']

theorem tagName_eq_some_iff (rest : Str) (name : Option Str) :
    tagName rest = some name ↔
      (rest = [] ∧ name = none) ∨
      (∃ c t, rest = c :: t ∧ isWhiteSpace c = true ∧
        name = some ((rest.dropWhile isWhiteSpace).takeWhile fun d => !isWhiteSpace d)) := by
  cases rest with
  | nil =>
    constructor
    · intro h
      simp only [tagName, Option.some.injEq] at h
      exact Or.inl ⟨rfl, h.symm⟩
    · rintro (⟨_, rfl⟩ | ⟨c, t, h, _⟩)
      · rfl
      · cases h
  | cons c t =>
    cases hc : isWhiteSpace c with
    | false =>
      constructor
      · intro h
        simp [tagName, hc] at h
      · rintro (⟨h, _⟩ | ⟨c2, t2, h, hc2, _⟩)
        · cases h
        · cases h
          rw [hc] at hc2
          cases hc2
    | true =>
      constructor
      · intro h
        simp only [tagName, hc, if_true, Option.some.injEq] at h
        exact Or.inr ⟨c, t, rfl, hc, h.symm⟩
      · rintro (⟨h, _⟩ | ⟨c2, t2, _, _, h⟩)
        · cases h
        · simp only [tagName, hc, if_true, h]

theorem leading_whitespace_iff (input P t : Str) (hP : ∀ c ∈ P, isWhiteSpace c = true) :
    input = P ++ 35 :: t ↔
      input.takeWhile isWhiteSpace = P ∧ input.dropWhile isWhiteSpace = 35 :: t := by
  constructor
  · rintro rfl
    exact ⟨takeWhile_isWhiteSpace_append_hash P t hP, dropWhile_isWhiteSpace_append_hash P t hP⟩
  · rintro ⟨h1, h2⟩
    rw [← List.takeWhile_append_dropWhile isWhiteSpace input, h1, h2]

theorem mem_empty_ends (input : Str) (x y : Nat) : y ∈ Re.empty.ends input x ↔ y = x := by
  simp [Re.ends]

theorem mem_alt_ends (input : Str) (a b : Re) (x y : Nat) :
    y ∈ (Re.alt a b).ends input x ↔ y ∈ a.ends input x ∨ y ∈ b.ends input x := by
  simp [Re.ends]

theorem mem_seq_empty_ends (input : Str) (a : Re) (x y : Nat) :
    y ∈ (Re.seq a .empty).ends input x ↔ y ∈ a.ends input x := by
  rw [mem_seq_ends]
  simp [mem_empty_ends]

theorem spaceChar_ends_eq (input : Str) : spaceChar.ends input = charStep input isWhiteSpace := by
  funext x
  unfold spaceChar
  rw [chars_ends_eq]
  congr 1
  funext c
  simp [space_has]

theorem mem_charStep (input : Str) (p : Nat → Bool) (x y : Nat) :
    y ∈ charStep input p x ↔ ∃ c, input[x]? = some c ∧ p c = true ∧ y = x + 1 := by
  unfold charStep
  cases hx : input[x]? with
  | none => simp
  | some c =>
    cases hp : p c with
    | false => simp [hp]
    | true => simp [hp]

theorem mem_spaceStar_ends (input : Str) (y : Nat) :
    y ∈ (Re.rep 0 none spaceChar).ends input 0 ↔
      y ≤ input.length ∧ ∀ c ∈ input.take y, isWhiteSpace c = true := by
  rw [rep_ends, spaceChar_ends_eq]
  have h := mem_repeatEnds_star isWhiteSpace input [] (0 + input.length + 1) y (by omega)
  simp only [List.nil_append, List.length_nil, Nat.zero_add] at h
  simp only [Nat.zero_add]
  rw [h]
  constructor
  · rintro ⟨k, hk, rfl, hall⟩
    exact ⟨hk, hall⟩
  · rintro ⟨hy, hall⟩
    exact ⟨y, hy, rfl, hall⟩

theorem step_of_mem_repeatEnds_plus (step : Nat → List Nat) (fuel min x y : Nat)
    (hmin : min ≠ 0) (h : y ∈ repeatEnds step fuel min none x) : ∃ z, z ∈ step x := by
  cases fuel with
  | zero => simp [repeatEnds] at h
  | succ f =>
    simp only [repeatEnds, if_neg hmin] at h
    have hnone : ¬ ((none : Option Nat) = some 0) := by simp
    rw [if_neg hnone] at h
    obtain ⟨z, hz, _⟩ := List.mem_flatMap.1 h
    exact ⟨z, (List.mem_filter.1 hz).1⟩

theorem mem_repeatEnds_opt (step : Nat → List Nat) (f x y : Nat)
    (h : y ∈ repeatEnds step (f + 1) 0 (some 1) x) : y = x ∨ ∃ z, z ∈ step x := by
  simp only [repeatEnds] at h
  have hne : ¬ (some 1 = some 0) := by simp
  rw [if_neg hne] at h
  simp only [if_true, List.mem_append, List.mem_singleton] at h
  rcases h with h | h
  · obtain ⟨z, hz, _⟩ := List.mem_flatMap.1 h
    exact Or.inr ⟨z, (List.mem_filter.1 hz).1⟩
  · exact Or.inl h

theorem self_mem_repeatEnds_opt (step : Nat → List Nat) (f x : Nat) :
    x ∈ repeatEnds step (f + 1) 0 (some 1) x := by
  simp only [repeatEnds]
  have hne : ¬ (some 1 = some 0) := by simp
  rw [if_neg hne]
  simp

theorem getElem?_append_length (pre rest : Str) :
    (pre ++ rest)[pre.length]? = rest.head? := by
  rw [List.getElem?_append_right (Nat.le_refl _)]
  cases rest <;> simp

/-- The end of `tagRegExp` matches after `pre` in `pre ++ rest` exactly when `rest` is
empty or begins with whitespace. -/
theorem tagRest_ends (pre rest : Str) :
    (∃ y, y ∈ tagRest.ends (pre ++ rest) pre.length) ↔
      rest = [] ∨ ∃ c t, rest = c :: t ∧ isWhiteSpace c = true := by
  have hspace : ∀ y, y ∈ spaceChar.ends (pre ++ rest) pre.length ↔
      ∃ c t, rest = c :: t ∧ isWhiteSpace c = true ∧ y = pre.length + 1 := by
    intro y
    rw [spaceChar_ends_eq, mem_charStep, getElem?_append_length]
    cases rest with
    | nil => simp
    | cons c t => simp
  have hfinal : ∀ z y, y ∈ (Re.seq (.alt (.seq spaceChar .empty) (.seq .eol .empty)) .empty).ends
      (pre ++ rest) z ↔
      y ∈ spaceChar.ends (pre ++ rest) z ∨ (z = (pre ++ rest).length ∧ y = z) := by
    intro z y
    rw [mem_seq_empty_ends, mem_alt_ends, mem_seq_empty_ends, mem_eol_empty_ends]
  have hfuel : 0 + (pre ++ rest).length + 1 = (pre ++ rest).length + 1 := by omega
  unfold tagRest
  constructor
  · rintro ⟨y, hy⟩
    obtain ⟨z, hz, hy2⟩ := (mem_seq_ends _ _ _ _ _).1 hy
    rw [rep_ends, hfuel] at hz
    rcases mem_repeatEnds_opt _ _ _ _ hz with rfl | ⟨z1, hz1⟩
    · rcases (hfinal _ _).1 hy2 with h | ⟨hlen, _⟩
      · obtain ⟨c, t, hr, hc, _⟩ := (hspace y).1 h
        exact Or.inr ⟨c, t, hr, hc⟩
      · left
        simp only [List.length_append] at hlen
        exact List.length_eq_zero.1 (by omega)
    · obtain ⟨z2, hz2, _⟩ := (mem_seq_ends _ _ _ _ _).1 hz1
      rw [mem_seq_empty_ends, rep_ends] at hz2
      obtain ⟨z3, hz3⟩ := step_of_mem_repeatEnds_plus _ _ 1 _ _ (by omega) hz2
      obtain ⟨c, t, hr, hc, _⟩ := (hspace z3).1 hz3
      exact Or.inr ⟨c, t, hr, hc⟩
  · intro h
    have hself : pre.length ∈ (Re.rep 0 (some 1)
        (.seq (.seq (.rep 1 none spaceChar) .empty)
          (.seq (.seq (.rep 0 none (.chars true [⟨false, lineTerminatorRanges⟩])) .empty)
            .empty))).ends (pre ++ rest) pre.length := by
      rw [rep_ends, hfuel]
      exact self_mem_repeatEnds_opt _ _ _
    rcases h with rfl | ⟨c, t, hr, hc⟩
    · exact ⟨pre.length, (mem_seq_ends _ _ _ _ _).2 ⟨pre.length, hself,
        (hfinal _ _).2 (Or.inr ⟨by simp, rfl⟩)⟩⟩
    · exact ⟨pre.length + 1, (mem_seq_ends _ _ _ _ _).2 ⟨pre.length, hself,
        (hfinal _ _).2 (Or.inl ((hspace _).2 ⟨c, t, hr, hc, rfl⟩))⟩⟩

/-- The pattern `tagRegExp`, as the model of `RegExp` reads it, matches a line exactly
when the line is whitespace, `#`, one whitespace character, `EXPORT` and then nothing
or something that begins with whitespace. -/
theorem tagRe_test_iff (input : Str) :
    tagRe.test input = true ↔
      ∃ P w rest, input = P ++ 35 :: w :: (exportKeyword ++ rest) ∧
        (∀ c ∈ P, isWhiteSpace c = true) ∧ isWhiteSpace w = true ∧
        (rest = [] ∨ ∃ c t, rest = c :: t ∧ isWhiteSpace c = true) := by
  unfold tagRe
  rw [test_bol]
  constructor
  · rintro ⟨y, hy⟩
    obtain ⟨k, hk, hy1⟩ := (mem_seq_ends _ _ _ _ _).1 hy
    rw [mem_seq_empty_ends, mem_spaceStar_ends] at hk
    obtain ⟨hklen, hkall⟩ := hk
    obtain ⟨z1, hz1, hy2⟩ := (mem_seq_ends _ _ _ _ _).1 hy1
    obtain ⟨hhash, rfl⟩ := (mem_single_ends _ _ _ _).1 hz1
    obtain ⟨z2, hz2, hy3⟩ := (mem_seq_ends _ _ _ _ _).1 hy2
    rw [spaceChar_ends_eq, mem_charStep] at hz2
    obtain ⟨w, hw, hws, rfl⟩ := hz2
    obtain ⟨z3, hz3, hy4⟩ := (mem_seq_ends _ _ _ _ _).1 hy3
    obtain ⟨⟨rest, hrest⟩, hz3e⟩ := (mem_litChain_ends _ _ _ _ _).1 hz3
    rw [mem_empty_ends] at hz3e
    subst hz3e
    have hd1 : input.drop (k + 1) = w :: (exportKeyword ++ rest) :=
      (drop_eq_cons_iff input (k + 1) w _).2 ⟨hw, hrest⟩
    have hd0 : input.drop k = 35 :: w :: (exportKeyword ++ rest) :=
      (drop_eq_cons_iff input k 35 _).2 ⟨hhash, hd1⟩
    have hinput : input = input.take k ++ 35 :: w :: (exportKeyword ++ rest) := by
      rw [← hd0, List.take_append_drop]
    refine ⟨input.take k, w, rest, hinput, hkall, hws, ?_⟩
    have hpre : input = (input.take k ++ 35 :: w :: exportKeyword) ++ rest := by
      rw [List.append_assoc]
      exact hinput
    have hlen : (input.take k ++ 35 :: w :: exportKeyword).length = k + 1 + 1 + exportKeyword.length := by
      simp only [List.length_append, List.length_cons, List.length_take]
      omega
    apply (tagRest_ends (input.take k ++ 35 :: w :: exportKeyword) rest).1
    rw [← hpre, hlen]
    exact ⟨y, hy4⟩
  · rintro ⟨P, w, rest, rfl, hP, hw, hrest⟩
    have hpre : P ++ 35 :: w :: (exportKeyword ++ rest) = (P ++ 35 :: w :: exportKeyword) ++ rest := by
      simp
    have hlen : (P ++ 35 :: w :: exportKeyword).length = P.length + 1 + 1 + exportKeyword.length := by
      simp only [List.length_append, List.length_cons]
      omega
    obtain ⟨y, hy⟩ := (tagRest_ends (P ++ 35 :: w :: exportKeyword) rest).2 hrest
    rw [← hpre, hlen] at hy
    refine ⟨y, (mem_seq_ends _ _ _ _ _).2 ⟨P.length, ?_, (mem_seq_ends _ _ _ _ _).2
      ⟨P.length + 1, ?_, (mem_seq_ends _ _ _ _ _).2 ⟨P.length + 1 + 1, ?_,
        (mem_seq_ends _ _ _ _ _).2 ⟨P.length + 1 + 1 + exportKeyword.length, ?_, hy⟩⟩⟩⟩⟩
    · rw [mem_seq_empty_ends, mem_spaceStar_ends]
      refine ⟨by simp, ?_⟩
      simpa using hP
    · apply (mem_single_ends _ _ _ _).2
      refine ⟨?_, rfl⟩
      rw [getElem?_append_length]
      rfl
    · rw [spaceChar_ends_eq, mem_charStep]
      refine ⟨w, ?_, hw, rfl⟩
      have := getElem?_append_length (P ++ [35]) (w :: (exportKeyword ++ rest))
      simpa using this
    · apply (mem_litChain_ends _ _ _ _ _).2
      refine ⟨⟨rest, ?_⟩, (mem_empty_ends _ _ _).2 rfl⟩
      have : P ++ 35 :: w :: (exportKeyword ++ rest) = (P ++ [35, w]) ++ (exportKeyword ++ rest) := by
        simp
      rw [this]
      have hl : (P ++ [35, w]).length = P.length + 1 + 1 := by simp
      rw [← hl, List.drop_left]

/-- The marker lines in terms of whitespace: the match of `tagRegExp` is not `null`
exactly when the line has the shape of a marker. -/
theorem tagRegExpMatch_isSome_iff (input : Str) :
    (tagRegExpMatch input).isSome = true ↔
      ∃ P w rest, input = P ++ 35 :: w :: (exportKeyword ++ rest) ∧
        (∀ c ∈ P, isWhiteSpace c = true) ∧ isWhiteSpace w = true ∧
        (rest = [] ∨ ∃ c t, rest = c :: t ∧ isWhiteSpace c = true) := by
  rw [Option.isSome_iff_exists]
  constructor
  · rintro ⟨m, hm⟩
    obtain ⟨w, rest, name, hdrop, hw, hn, _⟩ := (tagRegExpMatch_eq_some_iff input m).1 hm
    have hall : ∀ c ∈ input.takeWhile isWhiteSpace, isWhiteSpace c = true :=
      fun c hc => List.mem_takeWhile_imp hc
    refine ⟨input.takeWhile isWhiteSpace, w, rest, ?_, hall, hw, ?_⟩
    · exact (leading_whitespace_iff input _ _ hall).2 ⟨rfl, hdrop⟩
    · rcases (tagName_eq_some_iff rest name).1 hn with ⟨h, _⟩ | ⟨c, t, h, hc, _⟩
      · exact Or.inl h
      · exact Or.inr ⟨c, t, h, hc⟩
  · rintro ⟨P, w, rest, hinput, hP, hw, hrest⟩
    obtain ⟨h1, h2⟩ := (leading_whitespace_iff input P _ hP).1 hinput
    have hn : ∃ name, tagName rest = some name := by
      rcases hrest with h | ⟨c, t, h, hc⟩
      · exact ⟨none, (tagName_eq_some_iff rest none).2 (Or.inl ⟨h, rfl⟩)⟩
      · exact ⟨_, (tagName_eq_some_iff rest _).2 (Or.inr ⟨c, t, h, hc, rfl⟩)⟩
    obtain ⟨name, hname⟩ := hn
    exact ⟨_, (tagRegExpMatch_eq_some_iff input _).2 ⟨w, rest, name, h2, hw, hname, rfl⟩⟩

theorem dropWhile_append_of_all (p : Nat → Bool) (xs ys : Str) (hxs : ∀ c ∈ xs, p c = true)
    (hys : ∀ c, ys.head? = some c → p c = false) : (xs ++ ys).dropWhile p = ys := by
  induction xs with
  | nil =>
    cases ys with
    | nil => rfl
    | cons c t => simp [List.dropWhile_cons, hys c rfl]
  | cons c cs ih =>
    simp only [List.cons_append, List.dropWhile_cons, hxs c (by simp), if_true]
    exact ih (fun d hd => hxs d (by simp [hd]))

theorem takeWhile_append_of_all (p : Nat → Bool) (xs ys : Str) (hxs : ∀ c ∈ xs, p c = true)
    (hys : ∀ c, ys.head? = some c → p c = false) : (xs ++ ys).takeWhile p = xs := by
  induction xs with
  | nil =>
    cases ys with
    | nil => rfl
    | cons c t => simp [List.takeWhile_cons, hys c rfl]
  | cons c cs ih =>
    simp only [List.cons_append, List.takeWhile_cons, hxs c (by simp), if_true]
    rw [ih (fun d hd => hxs d (by simp [hd]))]

/-- The capture groups of a marker line, for any way to write the line as whitespace,
`#`, one more code unit, `EXPORT` and a rest. -/
theorem tagRegExpMatch_groups_of_shape (input : Str) (m : TagMatch) (P : Str) (w : Nat)
    (rest : Str) (hm : tagRegExpMatch input = some m)
    (hinput : input = P ++ 35 :: w :: (exportKeyword ++ rest))
    (hP : ∀ c ∈ P, isWhiteSpace c = true) :
    m.indentStr = P ∧ m.keyword = exportKeyword ∧
      m.name = if rest = [] then none
        else some ((rest.dropWhile isWhiteSpace).takeWhile fun d => !isWhiteSpace d) := by
  obtain ⟨w2, rest2, name, hdrop, _, hn, rfl⟩ := (tagRegExpMatch_eq_some_iff input m).1 hm
  obtain ⟨h1, h2⟩ := (leading_whitespace_iff input P _ hP).1 hinput
  rw [h2] at hdrop
  simp only [List.cons.injEq, true_and] at hdrop
  have hrest : rest = rest2 := List.append_cancel_left hdrop.2
  subst hrest
  refine ⟨h1, rfl, ?_⟩
  rcases (tagName_eq_some_iff rest name).1 hn with ⟨h, hname⟩ | ⟨c, t, h, _, hname⟩
  · simp [h, hname]
  · have : rest ≠ [] := by rw [h]; simp
    simp [this, hname]

/-- C16: a line is a marker exactly when it is whitespace, `#`, one whitespace character,
`EXPORT` and then nothing or something that begins with whitespace, and this is how the
pattern `tagRegExp` itself tests a line; the indentation is the leading whitespace; the
name is absent when nothing follows `EXPORT` and otherwise the run of non-whitespace
characters after the whitespace that follows `EXPORT`, so it holds no whitespace and
what comes after it is ignored; a closing line is no marker. -/
theorem tag_grammar (input : Str) :
    ((tagRegExpMatch input).isSome = true ↔
      ∃ P w rest, input = P ++ 35 :: w :: (exportKeyword ++ rest) ∧
        (∀ c ∈ P, isWhiteSpace c = true) ∧ isWhiteSpace w = true ∧
        (rest = [] ∨ ∃ c t, rest = c :: t ∧ isWhiteSpace c = true)) ∧
    (RegExp tagRegExpSource = .regex tagRe ∧
      tagRe.test input = (tagRegExpMatch input).isSome) ∧
    (∀ (m : TagMatch) (P : Str) (w : Nat) (rest : Str), tagRegExpMatch input = some m →
      input = P ++ 35 :: w :: (exportKeyword ++ rest) → (∀ c ∈ P, isWhiteSpace c = true) →
      m.indentStr = P ∧ m.keyword = exportKeyword ∧
        m.name = if rest = [] then none
          else some ((rest.dropWhile isWhiteSpace).takeWhile fun d => !isWhiteSpace d)) ∧
    (∀ (m : TagMatch) (n : Str), tagRegExpMatch input = some m → m.name = some n →
      ∀ c ∈ n, isWhiteSpace c = false) ∧
    (∀ (m : TagMatch) (P : Str) (w : Nat) (gap n after : Str), tagRegExpMatch input = some m →
      input = P ++ 35 :: w :: (exportKeyword ++ (gap ++ n ++ after)) →
      (∀ c ∈ P, isWhiteSpace c = true) → gap ≠ [] → (∀ c ∈ gap, isWhiteSpace c = true) →
      n ≠ [] → (∀ c ∈ n, isWhiteSpace c = false) →
      (∀ c, after.head? = some c → isWhiteSpace c = true) → m.name = some n) ∧
    (∀ (P x : Str), (∀ c ∈ P, isWhiteSpace c = true) →
      input = P ++ utf16 "# /EXPORT " ++ x → tagRegExpMatch input = none) := by
  refine ⟨tagRegExpMatch_isSome_iff input, ⟨regExp_tagRegExpSource, ?_⟩,
    fun m P w rest hm hinput hP => tagRegExpMatch_groups_of_shape input m P w rest hm hinput hP,
    ?_, ?_, ?_⟩
  · rw [Bool.eq_iff_iff, tagRe_test_iff, tagRegExpMatch_isSome_iff]
  · intro m n hm hn c hc
    obtain ⟨w, rest, name, _, _, hname, rfl⟩ := (tagRegExpMatch_eq_some_iff input m).1 hm
    simp only at hn
    subst hn
    rcases (tagName_eq_some_iff rest _).1 hname with ⟨_, h⟩ | ⟨_, _, _, _, h⟩
    · cases h
    · simp only [Option.some.injEq] at h
      rw [h] at hc
      simpa using List.mem_takeWhile_imp hc
  · intro m P w gap n after hm hinput hP hgap hgapws hn hnws hafter
    obtain ⟨_, _, hname⟩ := tagRegExpMatch_groups_of_shape input m P w _ hm hinput hP
    have hne : gap ++ n ++ after ≠ [] := by
      cases gap with
      | nil => exact absurd rfl hgap
      | cons g gs => simp
    rw [if_neg hne] at hname
    rw [hname]
    congr 1
    have hhead : ∀ c, (n ++ after).head? = some c → isWhiteSpace c = false := by
      intro c hc
      cases n with
      | nil => exact absurd rfl hn
      | cons d ds =>
        simp only [List.cons_append, List.head?_cons, Option.some.injEq] at hc
        subst hc
        exact hnws _ (by simp)
    rw [List.append_assoc, dropWhile_append_of_all isWhiteSpace gap (n ++ after) hgapws hhead]
    apply takeWhile_append_of_all
    · intro c hc
      simp [hnws c hc]
    · intro c hc
      simp [hafter c hc]
  · intro P x hP hinput
    cases hm : tagRegExpMatch input with
    | none => rfl
    | some m =>
      obtain ⟨w, rest, name, hdrop, _, _, _⟩ := (tagRegExpMatch_eq_some_iff input m).1 hm
      have hhash : utf16 "# /EXPORT " = 35 :: 32 :: 47 :: utf16 "EXPORT " := by decide
      rw [hinput, hhash] at hdrop
      simp only [List.append_assoc, List.cons_append] at hdrop
      rw [dropWhile_isWhiteSpace_append_hash P _ hP, exportKeyword_eq] at hdrop
      simp at hdrop

theorem tag_grammar_witness :
    ∃ m : TagMatch, tagRegExpMatch (utf16 "\t# EXPORT demo  x") = some m ∧
      m.indentStr = utf16 "\t" ∧ m.name = some (utf16 "demo") ∧
      tagRe.test (utf16 "\t# EXPORT demo  x") = true ∧
      tagRegExpMatch (utf16 "\t# /EXPORT demo") = none := by
  have hm : tagRegExpMatch (utf16 "\t# EXPORT demo  x") =
      some ⟨utf16 "\t", exportKeyword, some (utf16 "demo")⟩ := by decide
  obtain ⟨_, ⟨_, htest⟩, hgroups, _, hname, _⟩ := tag_grammar (utf16 "\t# EXPORT demo  x")
  obtain ⟨_, _, _, _, _, hclose⟩ := tag_grammar (utf16 "\t# /EXPORT demo")
  refine ⟨_, hm, rfl, ?_, ?_, ?_⟩
  · exact hname _ (utf16 "\t") 32 (utf16 " ") (utf16 "demo") (utf16 "  x") hm (by decide)
      (by decide) (by decide) (by decide) (by decide) (by decide) (by decide)
  · rw [htest, hm]
    rfl
  · exact hclose (utf16 "\t") (utf16 "demo") (by decide) (by decide)

/-! ## Consistency of the manifest -/

theorem reduceFiles_records (path : PathLib) :
    ∀ (files : List (Str × Str)) (validFiles result : List FileConfig),
      reduceFiles path files validFiles = .ok result →
      ∀ r ∈ result, r ∈ validFiles ∨
        ∃ f ∈ files, ∃ slices, extractFile f.1 f.2 = .ok slices ∧ slices ≠ [] ∧
          r = fileConfig path f.1 slices := by
  intro files
  induction files with
  | nil =>
    intro validFiles result h r hr
    simp only [reduceFiles] at h
    cases h
    exact Or.inl hr
  | cons file rest ih =>
    intro validFiles result h r hr
    simp only [reduceFiles, onFile] at h
    cases he : extractFile file.1 file.2 with
    | error e => simp [he] at h
    | ok slices =>
      rw [he] at h
      simp only at h
      by_cases hl : slices.length = 0
      · rw [if_pos hl] at h
        rcases ih _ _ h r hr with h1 | ⟨f, hf, ss, h2⟩
        · exact Or.inl h1
        · exact Or.inr ⟨f, by simp [hf], ss, h2⟩
      · rw [if_neg hl] at h
        rcases ih _ _ h r hr with h1 | ⟨f, hf, ss, h2⟩
        · rcases List.mem_append.1 h1 with h1 | h1
          · exact Or.inl h1
          · simp only [List.mem_singleton] at h1
            refine Or.inr ⟨file, by simp, slices, he, ?_, h1⟩
            intro hc
            exact hl (by rw [hc]; rfl)
        · exact Or.inr ⟨f, by simp [hf], ss, h2⟩

theorem foldl_collectFiles_get (validFiles : List FileConfig) (p : Str)
    (hp : p ≠ utf16 "__proto__") :
    ∀ (obj : Manifest),
      (validFiles.foldl
        (fun obj fileConfig =>
          { files := obj.files.set fileConfig.file_path fileConfig
            files_paths := obj.files_paths ++ [fileConfig.file_path] })
        obj).files.get? p =
        (validFiles.reverse.find? fun r => decide (r.file_path = p)).or (obj.files.get? p) := by
  induction validFiles with
  | nil => intro obj; simp
  | cons record rest ih =>
    intro obj
    simp only [List.foldl_cons]
    rw [ih, get?_set obj.files record.file_path p record hp]
    simp only [List.reverse_cons, List.find?_append, List.find?_singleton]
    cases List.find? (fun r => decide (r.file_path = p)) rest.reverse with
    | some r => simp
    | none =>
      by_cases hrp : record.file_path = p
      · simp [hrp]
      · simp [hrp]

theorem find?_reverse_of_mem {α : Type} (p : α → Bool) (xs : List α) (x : α) (hx : x ∈ xs)
    (hpx : p x = true) : ∃ y, xs.reverse.find? p = some y ∧ p y = true ∧ y ∈ xs := by
  cases hf : xs.reverse.find? p with
  | none =>
    have := List.find?_eq_none.1 hf x (by simpa using hx)
    rw [hpx] at this
    exact absurd rfl this
  | some y =>
    exact ⟨y, rfl, List.find?_some hf, by simpa using List.mem_of_find?_eq_some hf⟩

/-- The part of the consistency of a manifest that holds for every input: each entry of
`files_paths` is a key of `files` whose record carries that path and its `res://` path
and has a name in `slices_names`; each name of `slices_names` other than `__proto__` is
a key of `slices` under which a slice of that name is stored. -/
theorem manifest_consistent (path : PathLib) (files : List (Str × Str)) (manifest : Manifest)
    (hproto : ∀ file ∈ files, file.1 ≠ utf16 "__proto__")
    (h : getProjectSlices path files = .ok manifest) :
    ∀ p ∈ manifest.files_paths, ∃ record, manifest.files.get? p = some record ∧
      record.file_path = p ∧ record.godot_path = utf16 "res://" ++ p ∧
      record.slices_names ≠ [] ∧
      ∀ n ∈ record.slices_names, n ≠ utf16 "__proto__" →
        ∃ slice, record.slices.get? n = some slice ∧ slice.name = n := by
  unfold getProjectSlices at h
  cases hr : reduceFiles path files [] with
  | error e => simp [hr] at h
  | ok validFiles =>
    rw [hr] at h
    cases h
    have hrec := reduceFiles_records path files [] validFiles hr
    have hpaths := (foldl_collectFiles validFiles { files_paths := [], files := JsObj.empty }).1
    simp only [List.nil_append] at hpaths
    intro p hp
    have hp2 : p ∈ validFiles.map fun record => record.file_path := by
      unfold collectFiles at hp
      rw [hpaths] at hp
      exact hp
    obtain ⟨r0, hr0, hr0p⟩ := List.mem_map.1 hp2
    have hpne : p ≠ utf16 "__proto__" := by
      rcases hrec r0 hr0 with hc | ⟨f, hf, ss, _, _, hrf⟩
      · cases hc
      · rw [← hr0p, hrf]
        exact hproto f hf
    obtain ⟨record, hfind, hrp, hmem⟩ := find?_reverse_of_mem
      (fun r : FileConfig => decide (r.file_path = p)) validFiles r0 hr0 (by simp [hr0p])
    have hget : (collectFiles validFiles).files.get? p = some record := by
      unfold collectFiles
      rw [foldl_collectFiles_get validFiles p hpne, hfind]
      rfl
    have hrp2 : record.file_path = p := by simpa using hrp
    refine ⟨record, hget, hrp2, ?_⟩
    rcases hrec record hmem with hc | ⟨f, _, ss, _, hss, hrf⟩
    · cases hc
    · subst hrf
      have hfp : f.1 = p := hrp2
      refine ⟨by rw [← hfp]; rfl, ?_, ?_⟩
      · rw [fileConfig_slices_names]
        intro hc
        exact hss (List.map_eq_nil_iff.1 hc)
      · intro n hn hnp
        rw [fileConfig_slices_names] at hn
        obtain ⟨s0, hs0, hs0n⟩ := List.mem_map.1 hn
        obtain ⟨slice, hfind2, hsn, _⟩ := find?_reverse_of_mem
          (fun s : Slice => decide (s.name = n)) ss s0 hs0 (by simp [hs0n])
        refine ⟨slice, ?_, by simpa using hsn⟩
        rw [(slices_table_last_wins path f.1 ss n hnp).1]
        exact hfind2

end Exporter
